import Mathlib

/-
  Verification of the Wren register-VM core against its specification.

  The definitions below are shallow embeddings of the C sources:
    - src/src/vm/wren_value.c   (map, list iteration, stack growth, GC marking)
    - src/unnamed/part_001      (wren_vm.c: interpreter, error propagation,
                                 upvalues, garbage collection driver)
  Machine integers are modelled as Nat/Int (uint32/uint64 arithmetic is made
  explicit with % 2^32 / % 2^64 where the C code relies on wrapping).
  IEEE-754 doubles are modelled as Int: none of the verified properties
  depends on float-specific behaviour, and the raw-bit hash of a double is
  abstracted to the two's-complement bit pattern of the integer.
  Functions whose C definitions live in files that are not part of the
  source tree (wren_primitive.c / wren_utils.c helpers) are modelled from
  the specification and carry a doc comment saying so.
-/

set_option maxHeartbeats 1000000

namespace Wren

/-- Value: the 64-bit tagged union of the VM (spec section 3).  `Num` carries
an Int (doubles abstracted), `str` carries the byte list of an ObjString,
`range` carries an ObjRange's fields, and `obj` carries the heap id of any
other (mutable) heap object, so that `wrenValuesSame` on two `obj` values is
pointer identity. -/
inductive Value where
  | nullV : Value
  | trueV : Value
  | falseV : Value
  | undefined : Value
  | num : Int → Value
  | str : List Nat → Value
  | range : Int → Int → Bool → Value
  | obj : Nat → Value
deriving DecidableEq, Repr

instance : Inhabited Value := ⟨Value.nullV⟩

/-- wrenValuesSame: bit-for-bit (pointer) identity of two values; structural
equality of the model type. -/
def wrenValuesSame (a b : Value) : Bool := a = b

/-- wrenValuesEqual from wren_value.c:1969-2013: identity, or numeric
equality, or field-wise range equality, or byte-wise string equality. -/
def wrenValuesEqual (a b : Value) : Bool :=
  if wrenValuesSame a b then true
  else
    match a, b with
    | Value.num x, Value.num y => x = y
    | Value.range f1 t1 i1, Value.range f2 t2 i2 => f1 = f2 ∧ t1 = t2 ∧ i1 = i2
    | Value.str s1, Value.str s2 => s1 = s2
    | _, _ => false

/-! ### checkArity (claim C10) — src/unnamed/part_001:838-851 -/

/-- checkArity from the FunctionCall dispatch path: `numArgs` counts the
receiver, so the call is accepted exactly when `numArgs - 1 >= fn->arity`;
otherwise the fiber error is set to a fixed message.  Returns the boolean
result and the error the C code stores into `vm->fiber->error` (none when
accepted). -/
def checkArity (arity : Int) (numArgs : Int) : Bool × Option (List Nat) :=
  if numArgs - 1 ≥ arity then (true, none)
  else (false, some ("Function expects more arguments.".toList.map Char.toNat))

/-! ### List iteration protocol (claim C6) — wren_value.c:1293-1347 -/

/-- Modelled from the spec: `validateInt` (defined in a file outside the
given sources) checks that a value is an integral number; model numbers are
already integers, so the check is just the Num tag test. -/
def validateInt (v : Value) : Bool :=
  match v with
  | Value.num _ => true
  | _ => false

/-- Modelled from the spec: `validateIndex` (defined outside the given
sources) validates an integer index against a count, producing the index
when it lies in bounds and an error otherwise.  Only non-negative indices
strictly below the count are in the spec's scope. -/
def validateIndex (v : Value) (count : Nat) : Option Nat :=
  match v with
  | Value.num i => if 0 ≤ i ∧ i < (count : Int) then some i.toNat else none
  | _ => none

/-- wrenIterateList (wren_value.c:1327-1347): a null iterator starts at 0
(or terminates immediately on an empty list); an integer iterator `i`
advances to `i+1` while `i < count - 1` (signed comparison) and otherwise
yields false.  A non-integer iterator fails `validateInt` and yields false
(with the fiber error set, not modelled in the return value). -/
def wrenIterateList (list : List Value) (iterator : Value) : Value :=
  if iterator = Value.nullV then
    if list.length = 0 then Value.falseV else Value.num 0
  else if validateInt iterator then
    match iterator with
    | Value.num index =>
      if index < 0 ∨ index ≥ (list.length : Int) - 1 then Value.falseV
      else Value.num (index + 1)
    | _ => Value.falseV
  else Value.falseV

/-- listIteratorValue (wren_value.c:1293-1299): validates the iterator as an
index into the element array and returns that element. -/
def listIteratorValue (list : List Value) (iterator : Value) : Value :=
  match validateIndex iterator list.length with
  | some index => list.getD index Value.nullV
  | none => Value.falseV

/-! ### OP_RANGE (claim C8) — src/unnamed/part_001:1818-1827 -/

/-- WrenInterpretResult from the public API; SUCCESS is the enum value 0. -/
inductive WrenInterpretResult where
  | success : WrenInterpretResult
  | compileError : WrenInterpretResult
  | runtimeError : WrenInterpretResult
deriving DecidableEq, Repr

/-- Modelled from the spec: `validateNum` (defined outside the given
sources) checks that a value is a number and otherwise stores a
"must be a number" error in the current fiber. -/
def validateNum (v : Value) : Bool :=
  match v with
  | Value.num _ => true
  | _ => false

/-- AS_NUM applied to a value: for a non-number the C macro reinterprets the
bits; the model returns 0 in that (garbage) case. -/
def asNum (v : Value) : Int :=
  match v with
  | Value.num n => n
  | _ => 0

/-- Outcome of executing one OP_RANGE instruction: the updated register
file, the fiber's error slot afterwards, and `some r` when the instruction
makes runInterpreter return result `r` on the spot. -/
structure OpRangeOutcome where
  regs : List Value
  fiberError : Option (List Nat)
  exitResult : Option WrenInterpretResult
deriving DecidableEq, Repr

/-- opRange embeds the OP_RANGE case of runInterpreter
(src/unnamed/part_001:1818-1827): only the right operand is validated, and
on failure the code executes `return false;` — in a function returning
WrenInterpretResult, `false` converts to 0, which is WREN_RESULT_SUCCESS —
without reaching REGISTER_RUNTIME_ERROR.  The left operand is never
validated and is read with AS_NUM unconditionally. -/
def opRange (regs : List Value) (fiberError : Option (List Nat))
    (a b c : Nat) (k : Bool) : OpRangeOutcome :=
  let fromVal := regs.getD b Value.nullV
  let toVal := regs.getD c Value.nullV
  if validateNum toVal then
    { regs := regs.set a (Value.range (asNum fromVal) (asNum toVal) k)
      fiberError := fiberError
      exitResult := none }
  else
    { regs := regs
      fiberError :=
        some ("Right hand side of range must be a number.".toList.map Char.toNat)
      exitResult := some WrenInterpretResult.success }

/-! ### Upvalues (claim C4) — src/unnamed/part_001:261-321 -/

/-- ObjUpvalue while it is open: `uid` is the allocation identity of the
object (so that sharing of an existing upvalue is observable) and `value`
is the stack slot its value pointer refers to. -/
structure Upvalue where
  uid : Nat
  value : Nat
deriving DecidableEq, Repr

/-- ObjUpvalue after closeUpvalues has run over it: `value` now points at
the upvalue's own `closed` storage, which holds the former stack slot's
value. -/
structure ClosedUpvalue where
  uid : Nat
  slot : Nat
  closed : Value
deriving DecidableEq, Repr

/-- captureUpvalue (src/unnamed/part_001:261-303): walk the open-upvalue
list while the entries point above `localSlot`; reuse an existing upvalue
for the slot, else insert a fresh one (identity `nextId`) in sorted
position.  Returns the new list, the next fresh identity, and the identity
of the returned upvalue. -/
def captureUpvalue : List Upvalue → Nat → Nat → List Upvalue × Nat × Nat
  | [], nextId, localSlot => ([⟨nextId, localSlot⟩], nextId + 1, nextId)
  | u :: rest, nextId, localSlot =>
    if u.value > localSlot then
      let r := captureUpvalue rest nextId localSlot
      (u :: r.1, r.2)
    else if u.value = localSlot then (u :: rest, nextId, u.uid)
    else (⟨nextId, localSlot⟩ :: u :: rest, nextId + 1, nextId)

/-- closeUpvalues (src/unnamed/part_001:307-321): pop open upvalues from
the head of the list while their slot is at or above `last`; each popped
upvalue copies the stack slot's value into its own `closed` storage and
retargets its pointer there.  Returns the remaining open list and the
closed upvalues produced by this call. -/
def closeUpvalues (stack : List Value) :
    List Upvalue → Nat → List Upvalue × List ClosedUpvalue
  | [], _ => ([], [])
  | u :: rest, lastSlot =>
    if u.value ≥ lastSlot then
      let r := closeUpvalues stack rest lastSlot
      (r.1, ⟨u.uid, u.value, stack.getD u.value Value.nullV⟩ :: r.2)
    else (u :: rest, [])

/-! ### wrenEnsureStack (claim C5) — wren_value.c:216-264 -/

/-- Fueled doubling loop computing the least power of two at or above n. -/
def pow2go (n : Nat) : Nat → Nat → Nat
  | 0, acc => acc
  | fuel + 1, acc => if n ≤ acc then acc else pow2go n fuel (acc * 2)

/-- Modelled from the spec: `wrenPowerOf2Ceil` (defined outside the given
sources) returns the next power of two at or above its argument (and 0 for
0, matching the bit-twiddling C implementation). -/
def wrenPowerOf2Ceil (n : Nat) : Nat :=
  if n = 0 then 0 else pow2go n n 1

/-- Fiber fields touched by wrenEnsureStack.  Addresses are modelled as
natural numbers; `stack` is the base address of the value-stack buffer,
`frames` holds each call frame's `stackStart` address and `openUpvalues`
each open upvalue's `value` address. -/
structure StackFiber where
  stack : Nat
  stackCapacity : Nat
  frames : List Nat
  openUpvalues : List Nat
deriving DecidableEq, Repr

/-- wrenEnsureStack (wren_value.c:216-264).  `newBase` is the address the
reallocation returns (chosen by the host allocator).  Faithful detail: the
apiStack guard compares against `fiber->stack + oldCapacity` where
`fiber->stack` has already been overwritten with the new base (line 238),
while frames and open upvalues are re-based unconditionally.  Returns the
(possibly re-based) apiStack and the updated fiber. -/
def wrenEnsureStack (apiStack : Nat) (fiber : StackFiber) (needed : Nat)
    (newBase : Nat) : Nat × StackFiber :=
  if fiber.stackCapacity ≥ needed then (apiStack, fiber)
  else
    let capacity := wrenPowerOf2Ceil needed
    let oldStack := fiber.stack
    let oldCapacity := fiber.stackCapacity
    let fiber1 : StackFiber :=
      { fiber with stack := newBase, stackCapacity := capacity }
    if fiber1.stack ≠ oldStack then
      let apiStack1 :=
        if apiStack ≥ oldStack ∧ apiStack ≤ fiber1.stack + oldCapacity then
          fiber1.stack + (apiStack - oldStack)
        else apiStack
      ( apiStack1
      , { fiber1 with
            frames := fiber.frames.map (fun s => fiber1.stack + (s - oldStack))
            openUpvalues :=
              fiber.openUpvalues.map (fun v => fiber1.stack + (v - oldStack)) } )
    else (apiStack, fiber1)

/-! ### registerRuntimeError (claim C1) — src/unnamed/part_001:423-454 -/

/-- FiberState from wren_value.h as used by the error propagation walk. -/
inductive FiberState where
  | root : FiberState
  | other : FiberState
  | tryState : FiberState
deriving DecidableEq, Repr

/-- Fiber fields read and written by registerRuntimeError.  The caller link
is represented positionally: a fiber's caller is the next entry of the
chain list. -/
structure ErrFiber where
  state : FiberState
  stack : List Value
  lastCallReg : Nat
  error : Value
deriving DecidableEq, Repr

instance : Inhabited ErrFiber :=
  ⟨{ state := FiberState.other, stack := [], lastCallReg := 0,
     error := Value.nullV }⟩

/-- Result of registerRuntimeError: `caught chain` means `vm->fiber` is now
the head of `chain` (the catching fiber's caller, with the error stored at
its lastCallReg); `uncaught` means the stack trace was printed and
`vm->fiber` was set to NULL, after which REGISTER_RUNTIME_ERROR makes
runInterpreter return WREN_RESULT_RUNTIME_ERROR; `crash` marks the C code
dereferencing a NULL caller (a Try fiber with no caller). -/
inductive RegErrResult where
  | caught : List ErrFiber → RegErrResult
  | uncaught : RegErrResult
  | crash : RegErrResult
deriving DecidableEq, Repr

/-- Loop body of registerRuntimeError: each fiber along the chain gets the
error; when a fiber in state FIBER_TRY is reached, its caller's stack slot
`lastCallReg` receives the error and that caller becomes the current
fiber; otherwise the caller is unhooked and the walk continues. -/
def registerRuntimeErrorWalk (e : Value) : List ErrFiber → RegErrResult
  | [] => RegErrResult.uncaught
  | f :: rest =>
    if f.state = FiberState.tryState then
      match rest with
      | [] => RegErrResult.crash
      | caller :: rest1 =>
        RegErrResult.caught
          ({ caller with stack := caller.stack.set caller.lastCallReg e } :: rest1)
    else registerRuntimeErrorWalk e rest

/-- registerRuntimeError (src/unnamed/part_001:423-454): the chain starts
at `vm->fiber` (which must have a non-null error) and is walked towards the
root. -/
def registerRuntimeError (chain : List ErrFiber) : RegErrResult :=
  registerRuntimeErrorWalk ((chain.headD default).error) chain

/-! ### Hash map (claims C3, C9) — wren_value.c:497-807 -/

/-- MIN_CAPACITY from wren_value.c:17. -/
def MIN_CAPACITY : Nat := 16

/-- GROW_FACTOR from wren_value.c:23. -/
def GROW_FACTOR : Nat := 2

/-- MAP_LOAD_PERCENT from wren_value.c:28. -/
def MAP_LOAD_PERCENT : Nat := 75

/-- MapEntry: one slot of the open-addressed entry array.  Slot states are
encoded in the entry itself: key Undefined and value false is an empty
slot, key Undefined and a non-false value is a tombstone, anything else is
a live entry. -/
structure MapEntry where
  key : Value
  value : Value
deriving DecidableEq, Repr

instance : Inhabited MapEntry := ⟨⟨Value.undefined, Value.falseV⟩⟩

/-- ObjMap: entry array plus capacity and live-entry count.  The entries
list has length `capacity`. -/
structure ObjMap where
  capacity : Nat
  count : Nat
  entries : List MapEntry
deriving DecidableEq, Repr

/-- hashBits (wren_value.c:516-528): Thomas Wang's 64-bit integer mix,
performed in uint64 arithmetic and truncated to the low 30 bits. -/
def hashBits (hash : Nat) : Nat :=
  let m := 2 ^ 64
  let h0 := hash % m
  let h1 := ((m - 1 - h0) + h0 * 2 ^ 18) % m
  let h2 := h1 ^^^ (h1 / 2 ^ 31)
  let h3 := (h2 * 21) % m
  let h4 := h3 ^^^ (h3 / 2 ^ 11)
  let h5 := (h4 + h4 * 2 ^ 6) % m
  let h6 := h5 ^^^ (h5 / 2 ^ 22)
  h6 % 2 ^ 30

/-- hashNumber (wren_value.c:531-535): hash of the raw 64-bit pattern of a
double; the model uses the two's-complement pattern of the integer. -/
def hashNumber (num : Int) : Nat :=
  hashBits ((num % (2 ^ 64 : Int)).toNat)

/-- hashString (wren_value.c:854-869): FNV-1a over the string's bytes in
uint32 arithmetic (an ObjString stores this hash at creation). -/
def hashString (bytes : List Nat) : Nat :=
  bytes.foldl (fun hash b => ((hash ^^^ b) * 16777619) % 2 ^ 32) 2166136261

/-- hashValue (wren_value.c:579-608, tagged-union branch) together with
hashObject (wren_value.c:538-575) for the heap-object cases present in the
model: false is 0, null is 1, true is 2, numbers use hashNumber, strings
use their FNV-1a hash, ranges xor the hashes of their endpoints, and any
other object (mutable, rejected by validateKey; an assertion in C) is 0. -/
def hashValue (value : Value) : Nat :=
  match value with
  | Value.falseV => 0
  | Value.nullV => 1
  | Value.trueV => 2
  | Value.num n => hashNumber n
  | Value.str s => hashString s
  | Value.range f t _ => hashNumber f ^^^ hashNumber t
  | Value.obj _ => 0
  | Value.undefined => 0

/-- Result of findEntry: the key was found at a slot, or the key is absent
and a slot (tombstone or empty) is where an insertion should go, or no
usable slot exists — the C code takes that last path when capacity is 0
(returning false with the result pointer unset) and, behind a failing
assertion, when every slot is live with a different key. -/
inductive FindEntryResult where
  | foundAt : Nat → FindEntryResult
  | insertAt : Nat → FindEntryResult
  | noEntry : FindEntryResult
deriving DecidableEq, Repr

/-- Loop body of findEntry (wren_value.c:632-667): the do-while over the
probe sequence, carrying the first tombstone seen.  The input list holds
the probed slots in order as (index, entry) pairs. -/
def findLoop (key : Value) : List (Nat × MapEntry) → Option Nat → FindEntryResult
  | [], some t => FindEntryResult.insertAt t
  | [], none => FindEntryResult.noEntry
  | (i, e) :: rest, tombstone =>
    if e.key = Value.undefined then
      if e.value = Value.falseV then FindEntryResult.insertAt (tombstone.getD i)
      else
        match tombstone with
        | none => findLoop key rest (some i)
        | some t => findLoop key rest (some t)
    else if wrenValuesEqual e.key key then FindEntryResult.foundAt i
    else findLoop key rest tombstone

/-- Probe sequence of the linear-probing walk: the slot indices
`(startIndex + j) % capacity` for `j = 0 .. capacity-1`, paired with the
entries stored there. -/
def walkList (entries : List MapEntry) (capacity startIndex : Nat) :
    List (Nat × MapEntry) :=
  (List.range capacity).map fun j =>
    ((startIndex + j) % capacity,
      entries.getD ((startIndex + j) % capacity) default)

/-- findEntry (wren_value.c:615-674): start probing at hash mod capacity
and walk at most `capacity` slots. -/
def findEntry (entries : List MapEntry) (capacity : Nat) (key : Value) :
    FindEntryResult :=
  if capacity = 0 then FindEntryResult.noEntry
  else findLoop key (walkList entries capacity (hashValue key % capacity)) none

/-- insertEntry (wren_value.c:680-698): replace the value when the key is
already present, else write the pair at the insertion slot; the boolean is
true when the key is new.  `none` is the path where the C code would
dereference an unset result pointer (never taken from a consistent map). -/
def insertEntry (entries : List MapEntry) (capacity : Nat) (key value : Value) :
    Option (List MapEntry × Bool) :=
  match findEntry entries capacity key with
  | FindEntryResult.foundAt i =>
    some (entries.set i ⟨(entries.getD i default).key, value⟩, false)
  | FindEntryResult.insertAt i => some (entries.set i ⟨key, value⟩, true)
  | FindEntryResult.noEntry => none

/-- One step of the re-add loop of resizeMap (wren_value.c:712-724): empty
slots and tombstones are skipped, live entries are re-inserted. -/
def resizeInsert (capacity : Nat) (acc : Option (List MapEntry))
    (e : MapEntry) : Option (List MapEntry) :=
  match acc with
  | none => none
  | some entries =>
    if e.key = Value.undefined then some entries
    else
      match insertEntry entries capacity e.key e.value with
      | some (entries1, _) => some entries1
      | none => none

/-- resizeMap (wren_value.c:701-730): build a fresh all-empty entry array of
the requested capacity and re-add every live entry; count is untouched. -/
def resizeMap (m : ObjMap) (capacity : Nat) : Option ObjMap :=
  match m.entries.foldl (resizeInsert capacity)
      (some (List.replicate capacity (default : MapEntry))) with
  | some entries =>
    some { capacity := capacity, count := m.count, entries := entries }
  | none => none

/-- wrenMapGet (wren_value.c:732-739): the found entry's value, or the
Undefined sentinel. -/
def wrenMapGet (m : ObjMap) (key : Value) : Value :=
  match findEntry m.entries m.capacity key with
  | FindEntryResult.foundAt i => (m.entries.getD i default).value
  | _ => Value.undefined

/-- wrenMapSet (wren_value.c:741-759): grow (doubling, minimum 16) when
count+1 exceeds 75 percent of capacity, then insert, bumping count when the
key is new. -/
def wrenMapSet (m : ObjMap) (key value : Value) : Option ObjMap := do
  let m ←
    if m.count + 1 > m.capacity * MAP_LOAD_PERCENT / 100 then
      let capacity := m.capacity * GROW_FACTOR
      let capacity := if capacity < MIN_CAPACITY then MIN_CAPACITY else capacity
      resizeMap m capacity
    else pure m
  let r ← insertEntry m.entries m.capacity key value
  pure { m with entries := r.1, count := if r.2 then m.count + 1 else m.count }

/-- wrenMapClear (wren_value.c:761-767): free the entry array. -/
def wrenMapClear : ObjMap :=
  { capacity := 0, count := 0, entries := [] }

/-- wrenMapRemoveKey (wren_value.c:769-807): tombstone the found slot and
decrement count; free the array when the count reaches zero, else shrink
(halving, floored at 16) when capacity exceeds 16 and the count drops below
75 percent of half the capacity.  Returns the removed value (NULL when the
key was absent).  The uint32 count is assumed consistent (at least 1 when a
live entry exists), so Nat subtraction matches the C decrement. -/
def wrenMapRemoveKey (m : ObjMap) (key : Value) : Option (ObjMap × Value) :=
  match findEntry m.entries m.capacity key with
  | FindEntryResult.foundAt i =>
    let value := (m.entries.getD i default).value
    let entries := m.entries.set i ⟨Value.undefined, Value.trueV⟩
    let count := m.count - 1
    if count = 0 then some (wrenMapClear, value)
    else if m.capacity > MIN_CAPACITY ∧
        count < m.capacity / GROW_FACTOR * MAP_LOAD_PERCENT / 100 then
      let capacity := m.capacity / GROW_FACTOR
      let capacity := if capacity < MIN_CAPACITY then MIN_CAPACITY else capacity
      let mMid : ObjMap :=
        { capacity := m.capacity, count := count, entries := entries }
      match resizeMap mMid capacity with
      | some m1 => some (m1, value)
      | none => none
    else some ({ capacity := m.capacity, count := count, entries := entries },
        value)
  | _ => some (m, Value.nullV)

/-- Modelled from the spec: `validateKey` (defined outside the given
sources) accepts only the immutable value types — null, booleans, numbers,
ranges, strings — and rejects mutable containers; the Undefined sentinel is
never observable from source code. -/
def validateKey (v : Value) : Bool :=
  match v with
  | Value.nullV | Value.trueV | Value.falseV => true
  | Value.num _ | Value.str _ | Value.range _ _ _ => true
  | Value.obj _ | Value.undefined => false

/-- Number of live entries of an entry array. -/
def liveCount (entries : List MapEntry) : Nat :=
  entries.countP (fun e => e.key ≠ Value.undefined)

/-- The pair (key, value) is stored live at some slot of the array. -/
def liveSlotWith (entries : List MapEntry) (key value : Value) : Prop :=
  key ≠ Value.undefined ∧
    ∃ i < entries.length, entries.getD i default = ⟨key, value⟩

/-- Every live slot's key probes back to exactly that slot.  This is the
structural consistency property that the map operations maintain on the
entry array. -/
def Findable (entries : List MapEntry) (capacity : Nat) : Prop :=
  ∀ i < capacity, (entries.getD i default).key ≠ Value.undefined →
    findEntry entries capacity ((entries.getD i default).key) =
      FindEntryResult.foundAt i

/-- Consistency of an ObjMap as maintained by the map API: the entry array
has `capacity` slots, `count` counts the live ones, and every live key is
findable. -/
def ValidMap (m : ObjMap) : Prop :=
  m.entries.length = m.capacity ∧ m.count = liveCount m.entries ∧
    Findable m.entries m.capacity

instance (entries : List MapEntry) (capacity : Nat) :
    Decidable (Findable entries capacity) := by
  unfold Findable; infer_instance

instance (m : ObjMap) : Decidable (ValidMap m) := by
  unfold ValidMap; infer_instance

/-! ### Garbage collector (claim C2) — src/unnamed/part_001:137-225 and
wren_value.c:1612-1892 -/

/-- Heap object as the collector sees it: its identity (the Obj pointer),
the isDark mark bit, and the identities of the objects its type-specific
blacken function grays (wren_value.c:1652-1832). -/
structure GcObj where
  id : Nat
  isDark : Bool
  refs : List Nat
deriving DecidableEq, Repr

/-- Collector state: the intrusive allocation list (vm->first order) and
the gray worklist (a stack: head is the top). -/
structure GcState where
  heap : List GcObj
  gray : List Nat
deriving DecidableEq, Repr

/-- Resolve an object id on the allocation list. -/
def lookupObj (heap : List GcObj) (oid : Nat) : Option GcObj :=
  heap.find? (fun o => o.id = oid)

/-- Set the isDark bit of an object. -/
def markDark (heap : List GcObj) (oid : Nat) : List GcObj :=
  heap.map fun o => if o.id = oid then { o with isDark := true } else o

/-- wrenGrayObj (wren_value.c:1612-1635): skip NULL (modelled by the
caller) and already-dark objects; otherwise darken the object and push it
on the gray stack. -/
def wrenGrayObj (s : GcState) (oid : Nat) : GcState :=
  match lookupObj s.heap oid with
  | none => s
  | some o =>
    if o.isDark then s
    else { heap := markDark s.heap oid, gray := oid :: s.gray }

/-- wrenGrayValue / graying an optional reference: NULL and non-object
values are skipped. -/
def wrenGrayOpt (s : GcState) (oid : Option Nat) : GcState :=
  match oid with
  | none => s
  | some i => wrenGrayObj s i

/-- Gray a list of references in order (the per-type blacken loops and the
root loops of wrenCollectGarbage). -/
def grayAll (s : GcState) (ids : List Nat) : GcState :=
  ids.foldl wrenGrayObj s

/-- References of an object on the list (empty for an absent id). -/
def refsOf (heap : List GcObj) (oid : Nat) : List Nat :=
  match lookupObj heap oid with
  | none => []
  | some o => o.refs

/-- Number of not-yet-darkened objects, the termination measure of the
mark loop. -/
def undarkCount (heap : List GcObj) : Nat :=
  heap.countP (fun o => !o.isDark)

/-- Termination measure of wrenBlackenObjects: each graying darkens one
object forever, so the worklist cannot grow without bound. -/
def gcMeasure (s : GcState) : Nat :=
  2 * undarkCount s.heap + s.gray.length

/-- wrenBlackenObjects (wren_value.c:1884-1892): pop from the gray stack
and blacken — gray every reference of the popped object — until the stack
is empty. -/
def wrenBlackenObjects (s : GcState) : GcState :=
  match hg : s.gray with
  | [] => s
  | oid :: rest =>
    wrenBlackenObjects (grayAll { heap := s.heap, gray := rest } (refsOf s.heap oid))
termination_by gcMeasure s
decreasing_by
  have hundark : ∀ (h : List GcObj) (oid : Nat),
      undarkCount (markDark h oid) ≤ undarkCount h := by
    intro h oid
    unfold undarkCount markDark
    rw [List.countP_map]
    apply List.countP_mono_left
    intro o _ ho
    by_cases hid : o.id = oid
    · simp [hid, Function.comp] at ho
    · simpa [hid, Function.comp] using ho
  have hmark : ∀ (h : List GcObj) (oid : Nat) (o : GcObj),
      lookupObj h oid = some o → o.isDark = false →
      undarkCount (markDark h oid) < undarkCount h := by
    intro h oid
    induction h with
    | nil => intro o hfind _; simp [lookupObj] at hfind
    | cons x t ih =>
      intro o hfind hdark
      by_cases hx : x.id = oid
      · rw [lookupObj, List.find?_cons_of_pos _ (by simp [hx])] at hfind
        have hxo : x = o := by injection hfind
        subst hxo
        have h2 := hundark t oid
        unfold undarkCount markDark at h2 ⊢
        rw [List.countP_map] at h2 ⊢
        simp only [List.countP_cons, Function.comp, if_pos hx, hdark]
        norm_num
        omega
      · rw [lookupObj, List.find?_cons_of_neg _ (by simp [hx])] at hfind
        have h2 := ih o hfind hdark
        unfold undarkCount markDark at h2 ⊢
        rw [List.countP_map] at h2 ⊢
        simp only [List.countP_cons, Function.comp, if_neg hx]
        omega
  have hgray : ∀ (i : Nat) (s : GcState),
      gcMeasure (wrenGrayObj s i) ≤ gcMeasure s := by
    intro i s
    unfold wrenGrayObj
    cases hfind : lookupObj s.heap i with
    | none => simp
    | some o =>
      by_cases hdark : o.isDark
      · simp [hdark]
      · simp only [hdark, if_false, Bool.false_eq_true]
        have := hmark s.heap i o hfind (by simpa using hdark)
        simp only [gcMeasure, List.length_cons]
        omega
  have hfold : ∀ (ids : List Nat) (s : GcState),
      gcMeasure (grayAll s ids) ≤ gcMeasure s := by
    intro ids
    induction ids with
    | nil => intro s; simp [grayAll]
    | cons i t ih =>
      intro s
      have h1 := ih (wrenGrayObj s i)
      have h2 := hgray i s
      simp only [grayAll, List.foldl_cons] at *
      omega
  have := hfold (refsOf s.heap oid) { heap := s.heap, gray := rest }
  simp only [gcMeasure, hg, List.length_cons] at *
  omega

/-- VM fields that form the GC root set (src/unnamed/part_001:158-182):
the modules map, the temporary roots, the current fiber, the handles'
values (when they are objects), any compiler state, and the method-name
symbol table's strings. -/
structure GcVM where
  heap : List GcObj
  modules : Option Nat
  tempRoots : List Nat
  fiber : Option Nat
  handleValues : List (Option Nat)
  compilerRoots : List Nat
  methodNames : List Nat
deriving Repr

/-- All root object ids of a VM, in the order wrenCollectGarbage grays
them. -/
def rootIds (vm : GcVM) : List Nat :=
  vm.modules.toList ++ vm.tempRoots ++ vm.fiber.toList ++
    vm.handleValues.reduceOption ++ vm.compilerRoots ++ vm.methodNames

/-- wrenCollectGarbage (src/unnamed/part_001:137-225): gray the roots,
blacken until the gray stack empties, then sweep — unlink and free every
white object, clear isDark on every black one.  (The bytesAllocated
bookkeeping does not affect which objects survive and is omitted.) -/
def wrenCollectGarbage (vm : GcVM) : GcVM :=
  let s : GcState := { heap := vm.heap, gray := [] }
  let s := wrenGrayOpt s vm.modules
  let s := grayAll s vm.tempRoots
  let s := wrenGrayOpt s vm.fiber
  let s := vm.handleValues.foldl wrenGrayOpt s
  let s := grayAll s vm.compilerRoots
  let s := grayAll s vm.methodNames
  let s := wrenBlackenObjects s
  { vm with
      heap := (s.heap.filter (fun o => o.isDark)).map
        (fun o => { o with isDark := false }) }

/-- One edge of the object graph: `b` is directly referenced by `a`. -/
def gcStep (heap : List GcObj) (a b : Nat) : Prop := b ∈ refsOf heap a

/-- An object id is reachable from the VM's root set. -/
def ReachableFrom (vm : GcVM) (oid : Nat) : Prop :=
  ∃ r ∈ rootIds vm, Relation.ReflTransGen (gcStep vm.heap) r oid

/-- Well-formedness of the VM heap on entry to the collector: distinct
object identities, all mark bits clear (initObj starts objects white and
the previous sweep cleared the survivors), references resolve on the
allocation list, and roots resolve on the allocation list. -/
def HeapWF (vm : GcVM) : Prop :=
  (vm.heap.map GcObj.id).Nodup ∧
    (∀ o ∈ vm.heap, o.isDark = false) ∧
    (∀ o ∈ vm.heap, ∀ r ∈ o.refs, ∃ o2 ∈ vm.heap, o2.id = r) ∧
    (∀ r ∈ rootIds vm, ∃ o ∈ vm.heap, o.id = r)

/-- Erase every mark bit: what remains of a heap when the isDark bits set
during marking are forgotten.  The mark phase only flips isDark bits, so
this is its invariant shape. -/
def clearDark (h : List GcObj) : List GcObj :=
  h.map (fun o => { o with isDark := false })

/-- The object with the given id is on the list and currently marked. -/
def darkAt (h : List GcObj) (oid : Nat) : Prop :=
  ∃ o ∈ h, o.id = oid ∧ o.isDark = true

/-- Invariant of the mark phase relative to the entering VM: only mark
bits have changed, everything gray is dark, everything dark is reachable
from the roots, and everything dark that is no longer on the gray
worklist already has all of its references dark. -/
def MarkInv (vm : GcVM) (s : GcState) : Prop :=
  clearDark s.heap = clearDark vm.heap ∧
    (∀ j ∈ s.gray, darkAt s.heap j) ∧
    (∀ j, darkAt s.heap j → ReachableFrom vm j) ∧
    (∀ j, darkAt s.heap j → j ∉ s.gray →
      ∀ r ∈ refsOf s.heap j, darkAt s.heap r)

/-! ### OP_LOADK (claim C7) — src/unnamed/part_001:980-999 -/

/-- Heap object for the LOADK model: a List object with its elements, a
Map object, or any other object type (which LOADK moves verbatim). -/
inductive HeapObj where
  | list : List Value → HeapObj
  | map : ObjMap → HeapObj
  | other : HeapObj
deriving DecidableEq, Repr

/-- Interpreter state touched by OP_LOADK: the function's constant table,
the container heap (association list id → object; allocation appends with
the next fresh id), and the current frame's registers. -/
structure InterpState where
  constants : List Value
  heap : List (Nat × HeapObj)
  regs : List Value
  nextId : Nat
deriving DecidableEq, Repr

/-- Look up a container object by id. -/
def heapLookup (heap : List (Nat × HeapObj)) (oid : Nat) : Option HeapObj :=
  (heap.find? (fun p => p.1 = oid)).map Prod.snd

/-- wrenRepeatList (wren_value.c:416-431): a fresh list whose element array
is the source's elements repeated `times` times (OP_LOADK uses times = 1 as
a shallow copy). -/
def wrenRepeatList (elements : List Value) (times : Nat) : List Value :=
  (List.replicate times elements).flatten

/-- Modelled from the spec: `wrenCopyMap` (defined outside the given
sources) makes a shallow copy of a map — a fresh map object with the same
entries; the fresh allocation is performed by the caller's heap append. -/
def wrenCopyMap (m : ObjMap) : ObjMap := m

/-- opLoadK embeds the OP_LOADK case of runInterpreter
(src/unnamed/part_001:980-999): R[A] := K[Bx], except that a List constant
is replaced by wrenRepeatList(list, 1) and a Map constant by wrenCopyMap —
freshly allocated shallow copies — so the constant-table entry itself is
never exposed. -/
def opLoadK (st : InterpState) (a bx : Nat) : InterpState :=
  let constant := st.constants.getD bx Value.nullV
  match constant with
  | Value.obj oid =>
    match heapLookup st.heap oid with
    | some (HeapObj.list elements) =>
      { st with
          heap := st.heap ++ [(st.nextId, HeapObj.list (wrenRepeatList elements 1))]
          regs := st.regs.set a (Value.obj st.nextId)
          nextId := st.nextId + 1 }
    | some (HeapObj.map m) =>
      { st with
          heap := st.heap ++ [(st.nextId, HeapObj.map (wrenCopyMap m))]
          regs := st.regs.set a (Value.obj st.nextId)
          nextId := st.nextId + 1 }
    | _ => { st with regs := st.regs.set a constant }
  | _ => { st with regs := st.regs.set a constant }

/-! ## Theorems -/

theorem wrenValuesEqual_iff (a b : Value) : wrenValuesEqual a b = true ↔ a = b := by
  constructor
  · intro h
    by_cases hs : a = b
    · exact hs
    · exfalso
      cases a <;> cases b <;> simp_all [wrenValuesEqual, wrenValuesSame]
  · intro h
    subst h
    simp [wrenValuesEqual, wrenValuesSame]

theorem wrenValuesEqual_refl (a : Value) : wrenValuesEqual a a = true :=
  (wrenValuesEqual_iff a a).mpr rfl

/-- C10: checkArity rejects a call — returning false and storing the
"Function expects more arguments." error — exactly when the number of
supplied arguments excluding the receiver (numArgs - 1) is strictly less
than the closure's arity, and any call supplying at least the arity
(extras included) is accepted with no error. -/
theorem checkArity_spec (arity numArgs : Int) :
    ((checkArity arity numArgs).1 = false ↔ numArgs - 1 < arity) ∧
    (numArgs - 1 < arity →
      (checkArity arity numArgs).2 =
        some ("Function expects more arguments.".toList.map Char.toNat)) ∧
    (numArgs - 1 ≥ arity → checkArity arity numArgs = (true, none)) := by
  unfold checkArity
  by_cases h : numArgs - 1 ≥ arity <;> simp [h] <;> omega

/-- Witness for checkArity_spec: a call with arity 2 and three supplied
arguments (numArgs 4 including the receiver) is accepted. -/
theorem checkArity_spec_witness :
    (checkArity 2 4).1 ≠ false ∧ checkArity 2 4 = (true, none) := by
  have h := checkArity_spec 2 4
  refine ⟨fun hf => ?_, h.2.2 (by norm_num)⟩
  have := h.1.mp hf
  omega

/-- C6: the built-in list iteration protocol.  On a list of length n ≥ 1 a
null iterator yields 0; an integer iterator i advances to i+1 while
i+1 < n and yields false once i+1 ≥ n, so the protocol enumerates
0, 1, …, n-1 and then false; listIteratorValue returns element i for
iterator i; and on an empty list the first iterate call returns false. -/
theorem listIteration_spec (l : List Value) :
    (1 ≤ l.length → wrenIterateList l Value.nullV = Value.num 0) ∧
    (∀ i : Nat, i + 1 < l.length →
      wrenIterateList l (Value.num i) = Value.num (i + 1)) ∧
    (∀ i : Nat, l.length ≤ i + 1 →
      wrenIterateList l (Value.num i) = Value.falseV) ∧
    (∀ i : Nat, i < l.length →
      listIteratorValue l (Value.num i) = l.getD i Value.nullV) ∧
    (l.length = 0 → wrenIterateList l Value.nullV = Value.falseV) := by
  refine ⟨?_, ?_, ?_, ?_, ?_⟩
  · intro h
    unfold wrenIterateList
    simp [Nat.ne_of_gt h]
  · intro i h
    unfold wrenIterateList
    have h1 : ¬((i : Int) < 0 ∨ (i : Int) ≥ (l.length : Int) - 1) := by
      push_neg
      constructor <;> omega
    simp only [validateInt, h1]
    simp
  · intro i h
    unfold wrenIterateList
    have h1 : ((i : Int) < 0 ∨ (i : Int) ≥ (l.length : Int) - 1) = True := by
      simp only [eq_iff_iff, iff_true]
      omega
    simp [validateInt, h1]
    omega
  · intro i h
    unfold listIteratorValue validateIndex
    have h1 : (0 : Int) ≤ (i : Int) ∧ (i : Int) < (l.length : Int) := by omega
    simp [h1]
  · intro h
    unfold wrenIterateList
    simp [h]

/-- Witness for listIteration_spec: on the two-element list [true, null]
the protocol yields 0, then 1, then false, and the values are the
elements. -/
theorem listIteration_spec_witness :
    wrenIterateList [Value.trueV, Value.nullV] Value.nullV = Value.num 0 ∧
    wrenIterateList [Value.trueV, Value.nullV] (Value.num 0) = Value.num 1 ∧
    wrenIterateList [Value.trueV, Value.nullV] (Value.num 1) = Value.falseV ∧
    listIteratorValue [Value.trueV, Value.nullV] (Value.num 0) = Value.trueV := by
  have h := listIteration_spec [Value.trueV, Value.nullV]
  refine ⟨h.1 (by norm_num), ?_, ?_, ?_⟩
  · have := h.2.1 0 (by norm_num)
    simpa using this
  · exact h.2.2.1 1 (by norm_num)
  · have := h.2.2.2.1 0 (by norm_num)
    simpa using this

/-- C8 evaluated at the failing inputs: with a non-number right operand
OP_RANGE sets the fiber error but makes runInterpreter return
WREN_RESULT_SUCCESS (the `return false;` slip), and with a non-number left
operand it raises no error at all and builds a garbage range — in both
cases contradicting the claim that a wrong-operand-type error surfaces as
a runtime error rather than terminating successfully. -/
theorem opRange_bug :
    (opRange [Value.nullV, Value.num 1, Value.trueV] none 0 1 2 true).exitResult =
        some WrenInterpretResult.success ∧
    (opRange [Value.nullV, Value.num 1, Value.trueV] none 0 1 2 true).fiberError ≠
        none ∧
    (opRange [Value.nullV, Value.trueV, Value.num 2] none 0 1 2 true).fiberError =
        none ∧
    (opRange [Value.nullV, Value.trueV, Value.num 2] none 0 1 2 true).exitResult =
        none ∧
    (opRange [Value.nullV, Value.trueV, Value.num 2] none 0 1 2 true).regs =
        [Value.range 0 2 true, Value.trueV, Value.num 2] := by
  refine ⟨rfl, by decide, rfl, rfl, rfl⟩

/-- C5 evaluated at a failing input: growing a stack of base address 100
and capacity 4 to needed size 5 relocates it to base 10 with capacity 8
(the next power of two); the frame and upvalue pointers are re-based to
the same relative slots, but vm.apiStack = 102 — which points at relative
slot 2 of the old buffer — fails the guard `apiStack <= newStack +
oldCapacity` (the code compares against the already-updated stack pointer)
and is left unpatched at 102 instead of being re-based to 10 + 2 = 12. -/
theorem wrenEnsureStack_bug :
    wrenEnsureStack 102 ⟨100, 4, [100, 101], [103]⟩ 5 10 =
      (102, ⟨10, 8, [10, 11], [13]⟩) ∧
    (102 : Nat) ≠ 10 + (102 - 100) := by
  constructor
  · rfl
  · decide

/-- Helper: the walk of registerRuntimeError skips non-Try fibers and
delivers the error to the caller of the first fiber whose state is
FIBER_TRY. -/
theorem registerRuntimeErrorWalk_caught (e : Value) (pre : List ErrFiber)
    (t c : ErrFiber) (rest : List ErrFiber)
    (hpre : ∀ f ∈ pre, f.state ≠ FiberState.tryState)
    (ht : t.state = FiberState.tryState) :
    registerRuntimeErrorWalk e (pre ++ t :: c :: rest) =
      RegErrResult.caught
        ({ c with stack := c.stack.set c.lastCallReg e } :: rest) := by
  induction pre with
  | nil => simp [registerRuntimeErrorWalk, ht]
  | cons f fs ih =>
    have hf : f.state ≠ FiberState.tryState := hpre f (by simp)
    simp only [List.cons_append, registerRuntimeErrorWalk, if_neg hf]
    exact ih (fun g hg => hpre g (by simp [hg]))

/-- Helper: when no fiber in the chain has state FIBER_TRY, the walk falls
off the end of the chain. -/
theorem registerRuntimeErrorWalk_uncaught (e : Value) (chain : List ErrFiber)
    (h : ∀ f ∈ chain, f.state ≠ FiberState.tryState) :
    registerRuntimeErrorWalk e chain = RegErrResult.uncaught := by
  induction chain with
  | nil => rfl
  | cons f fs ih =>
    have hf : f.state ≠ FiberState.tryState := h f (by simp)
    simp only [registerRuntimeErrorWalk, if_neg hf]
    exact ih (fun g hg => h g (by simp [hg]))

/-- C1 counterexample: a chain F (state Other, error true) → A (state Try,
lastCallReg 1) → P (state Root, lastCallReg 0).  The claim as stated says
the Try-state ancestor A receives the error at A's lastCallReg and becomes
the current fiber; registerRuntimeError instead delivers the error to A's
caller P — at P's lastCallReg — and makes P the current fiber, leaving A's
stack untouched and dropping A from the chain. -/
theorem registerRuntimeError_counterexample :
    registerRuntimeError
        [⟨FiberState.other, [], 0, Value.trueV⟩,
         ⟨FiberState.tryState, [Value.nullV, Value.nullV], 1, Value.nullV⟩,
         ⟨FiberState.root, [Value.nullV, Value.nullV], 0, Value.nullV⟩] =
      RegErrResult.caught
        [⟨FiberState.root, [Value.trueV, Value.nullV], 0, Value.nullV⟩] ∧
    RegErrResult.caught
        [⟨FiberState.root, [Value.trueV, Value.nullV], 0, Value.nullV⟩] ≠
      RegErrResult.caught
        [⟨FiberState.tryState, [Value.nullV, Value.trueV], 1, Value.nullV⟩,
         ⟨FiberState.root, [Value.nullV, Value.nullV], 0, Value.nullV⟩] := by
  decide

/-- C1 (amended): when the aborting fiber's error is e and the chain
starting at the aborting fiber contains a fiber T with state Try (every
fiber before T having some other state), registerRuntimeError delivers e
to T's caller C — writing e into C's stack at C's lastCallReg — and C
becomes the current fiber with the chain beyond it intact; when no fiber
in the chain has state Try, the walk reports uncaught, after which the
stack trace is printed, vm.fiber becomes null, and REGISTER_RUNTIME_ERROR
terminates the interpreter with WREN_RESULT_RUNTIME_ERROR. -/
theorem registerRuntimeError_spec :
    (∀ (pre : List ErrFiber) (t c : ErrFiber) (rest : List ErrFiber),
      (∀ f ∈ pre, f.state ≠ FiberState.tryState) →
      t.state = FiberState.tryState →
      registerRuntimeError (pre ++ t :: c :: rest) =
        RegErrResult.caught
          ({ c with stack := c.stack.set c.lastCallReg (((pre ++ t :: c :: rest).headD default).error) } :: rest)) ∧
    (∀ chain : List ErrFiber,
      (∀ f ∈ chain, f.state ≠ FiberState.tryState) →
      registerRuntimeError chain = RegErrResult.uncaught) := by
  constructor
  · intro pre t c rest hpre ht
    exact registerRuntimeErrorWalk_caught _ pre t c rest hpre ht
  · intro chain h
    exact registerRuntimeErrorWalk_uncaught _ chain h

/-- Witness for registerRuntimeError_spec: both branches at concrete
chains — a fiber started with try whose caller is the root fiber, and a
chain with no Try fiber at all. -/
theorem registerRuntimeError_spec_witness :
    registerRuntimeError
        [⟨FiberState.tryState, [], 0, Value.trueV⟩,
         ⟨FiberState.root, [Value.nullV], 0, Value.nullV⟩] =
      RegErrResult.caught [⟨FiberState.root, [Value.trueV], 0, Value.nullV⟩] ∧
    registerRuntimeError [⟨FiberState.root, [], 0, Value.trueV⟩] =
      RegErrResult.uncaught := by
  constructor
  · have h := registerRuntimeError_spec.1 []
      ⟨FiberState.tryState, [], 0, Value.trueV⟩
      ⟨FiberState.root, [Value.nullV], 0, Value.nullV⟩ []
      (by intro f hf; simp at hf) rfl
    simpa using h
  · exact registerRuntimeError_spec.2 _
      (by intro f hf; simp at hf; simp [hf])

/-- Helper: every element of the list captureUpvalue produces is either an
element of the input list or the freshly created upvalue. -/
theorem captureUpvalue_subset (opens : List Upvalue) (nextId slot : Nat) :
    ∀ v ∈ (captureUpvalue opens nextId slot).1,
      v ∈ opens ∨ v = ⟨nextId, slot⟩ := by
  induction opens with
  | nil => intro v hv; simp [captureUpvalue] at hv; simp [hv]
  | cons u rest ih =>
    intro v hv
    by_cases h1 : u.value > slot
    · simp only [captureUpvalue, if_pos h1] at hv
      rcases List.mem_cons.mp hv with h | h
      · simp [h]
      · rcases ih v h with h2 | h2
        · exact Or.inl (List.mem_cons_of_mem _ h2)
        · exact Or.inr h2
    · by_cases h2 : u.value = slot
      · simp only [captureUpvalue, if_neg h1, if_pos h2] at hv
        exact Or.inl hv
      · simp only [captureUpvalue, if_neg h1, if_neg h2] at hv
        rcases List.mem_cons.mp hv with h | h
        · exact Or.inr h
        · exact Or.inl h

/-- Helper: captureUpvalue preserves the strictly-decreasing ordering of
the open-upvalue list. -/
theorem captureUpvalue_sorted (opens : List Upvalue) (nextId slot : Nat)
    (hs : List.Pairwise (fun a b => a.value > b.value) opens) :
    List.Pairwise (fun a b => a.value > b.value)
      (captureUpvalue opens nextId slot).1 := by
  induction opens with
  | nil => simp [captureUpvalue]
  | cons u rest ih =>
    have hu := (List.pairwise_cons.mp hs).1
    have hrest := (List.pairwise_cons.mp hs).2
    by_cases h1 : u.value > slot
    · simp only [captureUpvalue, if_pos h1]
      refine List.pairwise_cons.mpr ⟨?_, ih hrest⟩
      intro v hv
      rcases captureUpvalue_subset rest nextId slot v hv with h | h
      · exact hu v h
      · simp [h, h1]
    · by_cases h2 : u.value = slot
      · simpa only [captureUpvalue, if_neg h1, if_pos h2] using hs
      · have h3 : u.value < slot := by omega
        simp only [captureUpvalue, if_neg h1, if_neg h2]
        refine List.pairwise_cons.mpr ⟨?_, hs⟩
        intro v hv
        rcases List.mem_cons.mp hv with h | h
        · simp [h, h3]
        · have := hu v h
          simp
          omega

/-- Helper: on a strictly-decreasing list that already holds an upvalue for
the requested slot, captureUpvalue returns exactly that upvalue and leaves
the list and the allocation counter untouched. -/
theorem captureUpvalue_existing (opens : List Upvalue) (nextId slot : Nat)
    (u : Upvalue) (hs : List.Pairwise (fun a b => a.value > b.value) opens)
    (hu : u ∈ opens) (huv : u.value = slot) :
    captureUpvalue opens nextId slot = (opens, nextId, u.uid) := by
  induction opens with
  | nil => simp at hu
  | cons x rest ih =>
    have hx := (List.pairwise_cons.mp hs).1
    have hrest := (List.pairwise_cons.mp hs).2
    rcases List.mem_cons.mp hu with h | h
    · subst h
      simp [captureUpvalue, huv]
    · have hxv : x.value > u.value := hx u h
      have h1 : x.value > slot := by omega
      simp only [captureUpvalue, if_pos h1]
      rw [ih hrest h]

/-- Helper: when no open upvalue exists for the slot, captureUpvalue
allocates identity nextId for the slot, returns it, and the new list is
the old one plus that upvalue. -/
theorem captureUpvalue_new (opens : List Upvalue) (nextId slot : Nat)
    (h : ∀ u ∈ opens, u.value ≠ slot) :
    (captureUpvalue opens nextId slot).1.Perm (⟨nextId, slot⟩ :: opens) ∧
    (captureUpvalue opens nextId slot).2 = (nextId + 1, nextId) := by
  induction opens with
  | nil => simp [captureUpvalue]
  | cons u rest ih =>
    have hu : u.value ≠ slot := h u (by simp)
    by_cases h1 : u.value > slot
    · have ihr := ih (fun v hv => h v (by simp [hv]))
      simp only [captureUpvalue, if_pos h1]
      constructor
      · refine List.Perm.trans (List.Perm.cons u ihr.1) ?_
        exact List.Perm.swap _ _ _
      · exact ihr.2
    · simp only [captureUpvalue, if_neg h1, if_neg hu]
      exact ⟨List.Perm.refl _, trivial⟩

/-- Helper: on a strictly-decreasing list, closeUpvalues removes exactly
the upvalues at slots at or above `last`, closing each over the value the
stack held at its slot, and keeps exactly those strictly below. -/
theorem closeUpvalues_eq (stack : List Value) (opens : List Upvalue)
    (lastSlot : Nat)
    (hs : List.Pairwise (fun a b => a.value > b.value) opens) :
    closeUpvalues stack opens lastSlot =
      (opens.filter (fun u => u.value < lastSlot),
        (opens.filter (fun u => lastSlot ≤ u.value)).map
          (fun u => ⟨u.uid, u.value, stack.getD u.value Value.nullV⟩)) := by
  induction opens with
  | nil => simp [closeUpvalues]
  | cons u rest ih =>
    have hu := (List.pairwise_cons.mp hs).1
    have hrest := (List.pairwise_cons.mp hs).2
    by_cases h1 : u.value ≥ lastSlot
    · have h2 : ¬ u.value < lastSlot := by omega
      simp only [closeUpvalues, if_pos h1, ih hrest, List.filter_cons]
      simp [h1, h2]
    · have h2 : u.value < lastSlot := by omega
      have hall : ∀ v ∈ rest, v.value < lastSlot := by
        intro v hv
        have := hu v hv
        omega
      simp only [closeUpvalues, if_neg h1, List.filter_cons]
      have hfilter1 : rest.filter (fun u => u.value < lastSlot) = rest := by
        apply List.filter_eq_self.mpr
        intro v hv
        simpa using hall v hv
      have hfilter2 : rest.filter (fun u => lastSlot ≤ u.value) = [] := by
        apply List.filter_eq_nil_iff.mpr
        intro v hv
        have := hall v hv
        simp
        omega
      simp [h2, hfilter1, hfilter2, Nat.not_le.mpr h2]

/-- C4: on a strictly-decreasing open-upvalue list (the invariant the
fiber maintains), captureUpvalue preserves the ordering, returns the
existing upvalue — list and allocation counter unchanged — when one exists
for the slot, and otherwise allocates a fresh upvalue for the slot and
inserts it keeping the ordering; closeUpvalues(fiber, last) removes
exactly the upvalues with slot at or above last — each of which now owns a
closed copy of the value its stack slot held — so that afterwards no open
upvalue has value at or above last. -/
theorem upvalue_spec :
    (∀ (opens : List Upvalue) (nextId slot : Nat),
      List.Pairwise (fun a b => a.value > b.value) opens →
      List.Pairwise (fun a b => a.value > b.value)
        (captureUpvalue opens nextId slot).1) ∧
    (∀ (opens : List Upvalue) (nextId slot : Nat) (u : Upvalue),
      List.Pairwise (fun a b => a.value > b.value) opens →
      u ∈ opens → u.value = slot →
      captureUpvalue opens nextId slot = (opens, nextId, u.uid)) ∧
    (∀ (opens : List Upvalue) (nextId slot : Nat),
      (∀ u ∈ opens, u.value ≠ slot) →
      (captureUpvalue opens nextId slot).1.Perm (⟨nextId, slot⟩ :: opens) ∧
      (captureUpvalue opens nextId slot).2 = (nextId + 1, nextId)) ∧
    (∀ (stack : List Value) (opens : List Upvalue) (lastSlot : Nat),
      List.Pairwise (fun a b => a.value > b.value) opens →
      closeUpvalues stack opens lastSlot =
        (opens.filter (fun u => u.value < lastSlot),
          (opens.filter (fun u => lastSlot ≤ u.value)).map
            (fun u => ⟨u.uid, u.value, stack.getD u.value Value.nullV⟩)) ∧
      ∀ u ∈ (closeUpvalues stack opens lastSlot).1, u.value < lastSlot) := by
  refine ⟨captureUpvalue_sorted, captureUpvalue_existing, captureUpvalue_new,
    ?_⟩
  intro stack opens lastSlot hs
  have heq := closeUpvalues_eq stack opens lastSlot hs
  refine ⟨heq, ?_⟩
  intro u hu
  rw [heq] at hu
  simpa using (List.mem_filter.mp hu).2

/-- Witness for upvalue_spec: a fiber with open upvalues at slots 5 and 3;
capturing slot 5 reuses identity 1, capturing slot 4 inserts a fresh
upvalue between them, and closing at slot 4 closes exactly the upvalue at
slot 5 over the stack value there. -/
theorem upvalue_spec_witness :
    captureUpvalue [⟨1, 5⟩, ⟨2, 3⟩] 7 5 = ([⟨1, 5⟩, ⟨2, 3⟩], 7, 1) ∧
    (captureUpvalue [⟨1, 5⟩, ⟨2, 3⟩] 7 4).1.Perm
        (⟨7, 4⟩ :: [⟨1, 5⟩, ⟨2, 3⟩]) ∧
    closeUpvalues [Value.nullV, Value.nullV, Value.nullV, Value.nullV,
        Value.nullV, Value.trueV] [⟨1, 5⟩, ⟨2, 3⟩] 4 =
      ([⟨2, 3⟩], [⟨1, 5, Value.trueV⟩]) := by
  refine ⟨?_, ?_, ?_⟩
  · exact upvalue_spec.2.1 [⟨1, 5⟩, ⟨2, 3⟩] 7 5 ⟨1, 5⟩ (by decide)
      (by simp) rfl
  · exact (upvalue_spec.2.2.1 [⟨1, 5⟩, ⟨2, 3⟩] 7 4 (by decide)).1
  · have h := (upvalue_spec.2.2.2 [Value.nullV, Value.nullV, Value.nullV,
      Value.nullV, Value.nullV, Value.trueV] [⟨1, 5⟩, ⟨2, 3⟩] 4 (by decide)).1
    rw [h]
    rfl

/-- Helper: looking up a freshly appended object finds it when its id
occurs nowhere earlier on the heap. -/
theorem heapLookup_append_fresh (heap : List (Nat × HeapObj)) (nid : Nat)
    (x : HeapObj) (hfresh : ∀ p ∈ heap, p.1 ≠ nid) :
    heapLookup (heap ++ [(nid, x)]) nid = some x := by
  unfold heapLookup
  rw [List.find?_append]
  have h1 : heap.find? (fun p => p.1 = nid) = none :=
    List.find?_eq_none.mpr (by intro p hp; simpa using hfresh p hp)
  simp [h1, List.find?]

/-- Helper: appending a new object does not change the lookup of an id
already present. -/
theorem heapLookup_append_old (heap : List (Nat × HeapObj)) (nid oid : Nat)
    (x y : HeapObj) (hold : heapLookup heap oid = some y) :
    heapLookup (heap ++ [(nid, x)]) oid = some y := by
  unfold heapLookup at hold ⊢
  rw [List.find?_append]
  cases hfind : heap.find? (fun p => p.1 = oid) with
  | none => simp [hfind] at hold
  | some p => rw [hfind] at hold; simp [hfind, hold]

/-- Helper: repeating a list once copies its element array verbatim. -/
theorem wrenRepeatList_one (elements : List Value) :
    wrenRepeatList elements 1 = elements := by
  simp [wrenRepeatList]

/-- C7: LOADK A Bx stores constant K[Bx] into register A, except that a
List or Map constant is replaced by a freshly allocated shallow copy —
same element values respectively same entries, a container identity
distinct from the constant's and from every pre-existing object — so the
constant-table entry and the object it references are never exposed; any
other constant is stored verbatim. -/
theorem opLoadK_spec :
    (∀ (st : InterpState) (a bx oid : Nat) (elements : List Value),
      (∀ p ∈ st.heap, p.1 < st.nextId) →
      st.constants.getD bx Value.nullV = Value.obj oid →
      heapLookup st.heap oid = some (HeapObj.list elements) →
      (opLoadK st a bx).regs = st.regs.set a (Value.obj st.nextId) ∧
      st.nextId ≠ oid ∧
      heapLookup (opLoadK st a bx).heap st.nextId =
        some (HeapObj.list elements) ∧
      heapLookup (opLoadK st a bx).heap oid = some (HeapObj.list elements) ∧
      (opLoadK st a bx).constants = st.constants) ∧
    (∀ (st : InterpState) (a bx oid : Nat) (m : ObjMap),
      (∀ p ∈ st.heap, p.1 < st.nextId) →
      st.constants.getD bx Value.nullV = Value.obj oid →
      heapLookup st.heap oid = some (HeapObj.map m) →
      (opLoadK st a bx).regs = st.regs.set a (Value.obj st.nextId) ∧
      st.nextId ≠ oid ∧
      heapLookup (opLoadK st a bx).heap st.nextId = some (HeapObj.map m) ∧
      heapLookup (opLoadK st a bx).heap oid = some (HeapObj.map m) ∧
      (opLoadK st a bx).constants = st.constants) ∧
    (∀ (st : InterpState) (a bx : Nat),
      (∀ oid : Nat, st.constants.getD bx Value.nullV ≠ Value.obj oid) →
      (opLoadK st a bx).regs =
        st.regs.set a (st.constants.getD bx Value.nullV) ∧
      (opLoadK st a bx).heap = st.heap) := by
  have hfreshNe : ∀ (heap : List (Nat × HeapObj)) (nid oid : Nat)
      (y : HeapObj), (∀ p ∈ heap, p.1 < nid) →
      heapLookup heap oid = some y → nid ≠ oid := by
    intro heap nid oid y hfresh hold hno
    subst hno
    unfold heapLookup at hold
    cases hfind : heap.find? (fun p => p.1 = nid) with
    | none => simp [hfind] at hold
    | some p =>
      have hmem := List.find?_some hfind
      have hpmem := List.mem_of_find?_eq_some hfind
      have := hfresh p hpmem
      simp at hmem
      omega
  refine ⟨?_, ?_, ?_⟩
  · intro st a bx oid elements hfresh hc hl
    have hne := hfreshNe st.heap st.nextId oid _ hfresh hl
    have hstep : opLoadK st a bx =
        { st with
            heap := st.heap ++
              [(st.nextId, HeapObj.list (wrenRepeatList elements 1))]
            regs := st.regs.set a (Value.obj st.nextId)
            nextId := st.nextId + 1 } := by
      unfold opLoadK
      rw [hc]
      simp only [hl]
    rw [hstep]
    refine ⟨rfl, hne, ?_, ?_, rfl⟩
    · rw [wrenRepeatList_one]
      exact heapLookup_append_fresh st.heap st.nextId _
        (fun p hp => by have := hfresh p hp; omega)
    · exact heapLookup_append_old st.heap st.nextId oid _ _ hl
  · intro st a bx oid m hfresh hc hl
    have hne := hfreshNe st.heap st.nextId oid _ hfresh hl
    have hstep : opLoadK st a bx =
        { st with
            heap := st.heap ++ [(st.nextId, HeapObj.map (wrenCopyMap m))]
            regs := st.regs.set a (Value.obj st.nextId)
            nextId := st.nextId + 1 } := by
      unfold opLoadK
      rw [hc]
      simp only [hl]
    rw [hstep]
    refine ⟨rfl, hne, ?_, ?_, rfl⟩
    · exact heapLookup_append_fresh st.heap st.nextId _
        (fun p hp => by have := hfresh p hp; omega)
    · exact heapLookup_append_old st.heap st.nextId oid _ _ hl
  · intro st a bx hno
    unfold opLoadK
    cases hc : st.constants.getD bx Value.nullV with
    | obj oid => exact absurd hc (hno oid)
    | nullV => exact ⟨rfl, rfl⟩
    | trueV => exact ⟨rfl, rfl⟩
    | falseV => exact ⟨rfl, rfl⟩
    | undefined => exact ⟨rfl, rfl⟩
    | num n => exact ⟨rfl, rfl⟩
    | str s => exact ⟨rfl, rfl⟩
    | range f t i => exact ⟨rfl, rfl⟩

/-- Witness for opLoadK_spec: a constant table whose entry 0 references
list object 3 holding [true]; LOADK 1 0 stores a fresh copy (object 5)
into register 1, object 3 and the constant table are untouched. -/
theorem opLoadK_spec_witness :
    (opLoadK ⟨[Value.obj 3], [(3, HeapObj.list [Value.trueV])],
        [Value.nullV, Value.nullV], 5⟩ 1 0).regs =
      [Value.nullV, Value.obj 5] ∧
    heapLookup (opLoadK ⟨[Value.obj 3], [(3, HeapObj.list [Value.trueV])],
        [Value.nullV, Value.nullV], 5⟩ 1 0).heap 5 =
      some (HeapObj.list [Value.trueV]) := by
  have h := opLoadK_spec.1
    ⟨[Value.obj 3], [(3, HeapObj.list [Value.trueV])],
      [Value.nullV, Value.nullV], 5⟩ 1 0 3 [Value.trueV]
    (by decide) rfl rfl
  exact ⟨h.1, h.2.2.1⟩

/-! ### Probe-walk lemmas for the hash map -/

theorem findLoop_found_intro (k : Value) :
    ∀ (pre : List (Nat × MapEntry)) (i : Nat) (e : MapEntry)
      (post : List (Nat × MapEntry)) (t : Option Nat),
      (∀ q ∈ pre, (q.2.key = Value.undefined ∧ q.2.value ≠ Value.falseV) ∨
        (q.2.key ≠ Value.undefined ∧ q.2.key ≠ k)) →
      e.key = k → e.key ≠ Value.undefined →
      findLoop k (pre ++ (i, e) :: post) t = FindEntryResult.foundAt i := by
  intro pre
  induction pre with
  | nil =>
    intro i e post t _ hkey hund
    simp only [List.nil_append, findLoop]
    rw [if_neg hund, if_pos ((wrenValuesEqual_iff _ _).mpr hkey)]
  | cons q rest ih =>
    intro i e post t hpre hkey hund
    obtain ⟨j, f⟩ := q
    rcases hpre ⟨j, f⟩ (by simp) with ⟨h1, h2⟩ | ⟨h1, h2⟩
    · simp only [List.cons_append, findLoop, if_pos h1, if_neg h2]
      cases t with
      | none =>
        exact ih i e post (some j) (fun q hq => hpre q (by simp [hq])) hkey hund
      | some x =>
        exact ih i e post (some x) (fun q hq => hpre q (by simp [hq])) hkey hund
    · have h3 : ¬ (wrenValuesEqual f.key k = true) := by
        rw [wrenValuesEqual_iff]; exact h2
      simp only [List.cons_append, findLoop, if_neg h1, if_neg h3]
      exact ih i e post t (fun q hq => hpre q (by simp [hq])) hkey hund

theorem findLoop_found_elim (k : Value) :
    ∀ (slots : List (Nat × MapEntry)) (t : Option Nat) (i : Nat),
      findLoop k slots t = FindEntryResult.foundAt i →
      ∃ pre e post, slots = pre ++ (i, e) :: post ∧
        (∀ q ∈ pre, (q.2.key = Value.undefined ∧ q.2.value ≠ Value.falseV) ∨
          (q.2.key ≠ Value.undefined ∧ q.2.key ≠ k)) ∧
        e.key = k ∧ e.key ≠ Value.undefined := by
  intro slots
  induction slots with
  | nil =>
    intro t i h
    cases t <;> simp [findLoop] at h
  | cons q rest ih =>
    intro t i h
    obtain ⟨j, f⟩ := q
    by_cases h1 : f.key = Value.undefined
    · by_cases h2 : f.value = Value.falseV
      · simp [findLoop, if_pos h1, if_pos h2] at h
      · simp only [findLoop, if_pos h1, if_neg h2] at h
        cases t with
        | none =>
          obtain ⟨pre, e, post, hs, hpre, hk, hu⟩ := ih (some j) i h
          refine ⟨(j, f) :: pre, e, post, by simp [hs], ?_, hk, hu⟩
          intro q hq
          rcases List.mem_cons.mp hq with hh | hh
          · subst hh; exact Or.inl ⟨h1, h2⟩
          · exact hpre q hh
        | some x =>
          obtain ⟨pre, e, post, hs, hpre, hk, hu⟩ := ih (some x) i h
          refine ⟨(j, f) :: pre, e, post, by simp [hs], ?_, hk, hu⟩
          intro q hq
          rcases List.mem_cons.mp hq with hh | hh
          · subst hh; exact Or.inl ⟨h1, h2⟩
          · exact hpre q hh
    · by_cases h3 : f.key = k
      · simp only [findLoop] at h
        rw [if_neg h1, if_pos ((wrenValuesEqual_iff _ _).mpr h3)] at h
        have hij : j = i := by injection h with h4
        subst hij
        exact ⟨[], f, rest, rfl, by simp, h3, h1⟩
      · have h4 : ¬ (wrenValuesEqual f.key k = true) := by
          rw [wrenValuesEqual_iff]; exact h3
        simp only [findLoop] at h
        rw [if_neg h1, if_neg h4] at h
        obtain ⟨pre, e, post, hs, hpre, hk, hu⟩ := ih t i h
        refine ⟨(j, f) :: pre, e, post, by simp [hs], ?_, hk, hu⟩
        intro q hq
        rcases List.mem_cons.mp hq with hh | hh
        · subst hh; exact Or.inr ⟨h1, h3⟩
        · exact hpre q hh

theorem findLoop_insert_some (k : Value) :
    ∀ (slots : List (Nat × MapEntry)) (x p : Nat),
      findLoop k slots (some x) = FindEntryResult.insertAt p → p = x := by
  intro slots
  induction slots with
  | nil =>
    intro x p h
    simp only [findLoop] at h
    injection h with h1
    exact h1.symm
  | cons q rest ih =>
    intro x p h
    obtain ⟨j, f⟩ := q
    simp only [findLoop] at h
    by_cases h1 : f.key = Value.undefined
    · by_cases h2 : f.value = Value.falseV
      · rw [if_pos h1, if_pos h2] at h
        injection h with h3
        simp at h3
        exact h3.symm
      · rw [if_pos h1, if_neg h2] at h
        exact ih x p h
    · by_cases h3 : wrenValuesEqual f.key k = true
      · rw [if_neg h1, if_pos h3] at h
        cases h
      · rw [if_neg h1, if_neg h3] at h
        exact ih x p h

theorem findLoop_insert_elim (k : Value) :
    ∀ (slots : List (Nat × MapEntry)) (p : Nat),
      findLoop k slots none = FindEntryResult.insertAt p →
      ∃ pre e post, slots = pre ++ (p, e) :: post ∧
        (∀ q ∈ pre, q.2.key ≠ Value.undefined ∧ q.2.key ≠ k) ∧
        e.key = Value.undefined := by
  intro slots
  induction slots with
  | nil =>
    intro p h
    simp only [findLoop] at h
    exact (FindEntryResult.noConfusion h)
  | cons q rest ih =>
    intro p h
    obtain ⟨j, f⟩ := q
    simp only [findLoop] at h
    by_cases h1 : f.key = Value.undefined
    · by_cases h2 : f.value = Value.falseV
      · rw [if_pos h1, if_pos h2] at h
        injection h with h3
        simp at h3
        subst h3
        exact ⟨[], f, rest, rfl, by simp, h1⟩
      · rw [if_pos h1, if_neg h2] at h
        have hp := findLoop_insert_some k rest j p h
        subst hp
        exact ⟨[], f, rest, rfl, by simp, h1⟩
    · by_cases h3 : f.key = k
      · rw [if_neg h1, if_pos ((wrenValuesEqual_iff _ _).mpr h3)] at h
        cases h
      · have h4 : ¬ (wrenValuesEqual f.key k = true) := by
          rw [wrenValuesEqual_iff]; exact h3
        rw [if_neg h1, if_neg h4] at h
        obtain ⟨pre, e, post, hs, hpre, hu⟩ := ih p h
        refine ⟨(j, f) :: pre, e, post, by simp [hs], ?_, hu⟩
        intro q hq
        rcases List.mem_cons.mp hq with hh | hh
        · subst hh; exact ⟨h1, h3⟩
        · exact hpre q hh

theorem findLoop_no_found (k : Value) :
    ∀ (slots : List (Nat × MapEntry)) (t : Option Nat) (i : Nat),
      (∀ q ∈ slots, q.2.key ≠ Value.undefined → q.2.key ≠ k) →
      findLoop k slots t ≠ FindEntryResult.foundAt i := by
  intro slots
  induction slots with
  | nil =>
    intro t i _ h
    cases t <;> simp [findLoop] at h
  | cons q rest ih =>
    intro t i hno h
    obtain ⟨j, f⟩ := q
    simp only [findLoop] at h
    by_cases h1 : f.key = Value.undefined
    · by_cases h2 : f.value = Value.falseV
      · rw [if_pos h1, if_pos h2] at h
        cases h
      · rw [if_pos h1, if_neg h2] at h
        cases t with
        | none => exact ih (some j) i (fun q hq => hno q (by simp [hq])) h
        | some x => exact ih (some x) i (fun q hq => hno q (by simp [hq])) h
    · have h3 : f.key ≠ k := hno ⟨j, f⟩ (by simp) h1
      have h4 : ¬ (wrenValuesEqual f.key k = true) := by
        rw [wrenValuesEqual_iff]; exact h3
      rw [if_neg h1, if_neg h4] at h
      exact ih t i (fun q hq => hno q (by simp [hq])) h

theorem findLoop_some_ne_noEntry (k : Value) :
    ∀ (slots : List (Nat × MapEntry)) (x : Nat),
      findLoop k slots (some x) ≠ FindEntryResult.noEntry := by
  intro slots
  induction slots with
  | nil =>
    intro x h
    simp only [findLoop] at h
    exact (FindEntryResult.noConfusion h)
  | cons q rest ih =>
    intro x h
    obtain ⟨j, f⟩ := q
    simp only [findLoop] at h
    by_cases h1 : f.key = Value.undefined
    · by_cases h2 : f.value = Value.falseV
      · rw [if_pos h1, if_pos h2] at h
        cases h
      · rw [if_pos h1, if_neg h2] at h
        exact ih x h
    · by_cases h3 : wrenValuesEqual f.key k = true
      · rw [if_neg h1, if_pos h3] at h
        cases h
      · rw [if_neg h1, if_neg h3] at h
        exact ih x h

theorem findLoop_ne_noEntry (k : Value) :
    ∀ (slots : List (Nat × MapEntry)),
      (∃ q ∈ slots, q.2.key = Value.undefined) →
      findLoop k slots none ≠ FindEntryResult.noEntry := by
  intro slots
  induction slots with
  | nil =>
    intro hex _
    obtain ⟨q, hq, _⟩ := hex
    simp at hq
  | cons q rest ih =>
    intro hex h
    obtain ⟨j, f⟩ := q
    simp only [findLoop] at h
    by_cases h1 : f.key = Value.undefined
    · by_cases h2 : f.value = Value.falseV
      · rw [if_pos h1, if_pos h2] at h
        cases h
      · rw [if_pos h1, if_neg h2] at h
        exact findLoop_some_ne_noEntry k rest j h
    · by_cases h3 : wrenValuesEqual f.key k = true
      · rw [if_neg h1, if_pos h3] at h
        cases h
      · rw [if_neg h1, if_neg h3] at h
        obtain ⟨q, hq, hqu⟩ := hex
        rcases List.mem_cons.mp hq with hh | hh
        · rw [hh] at hqu
          exact h1 hqu
        · exact ih ⟨q, hh, hqu⟩ h

theorem findLoop_forall2 (k : Value) :
    ∀ (slots slots' : List (Nat × MapEntry)),
      List.Forall₂ (fun q q' : Nat × MapEntry => q.1 = q'.1 ∧
        q.2.key = q'.2.key ∧
        (q.2.key = Value.undefined →
          (q.2.value = Value.falseV ↔ q'.2.value = Value.falseV))) slots slots' →
      ∀ t, findLoop k slots t = findLoop k slots' t := by
  intro slots slots' hf
  induction hf with
  | nil => intro t; rfl
  | @cons q q' rest rest' hqq _ ih =>
    intro t
    obtain ⟨j, f⟩ := q
    obtain ⟨j', f'⟩ := q'
    obtain ⟨hj, hk, hv⟩ := hqq
    simp only at hj hk hv
    subst hj
    by_cases h1 : f.key = Value.undefined
    · have h1' : f'.key = Value.undefined := hk ▸ h1
      by_cases h2 : f.value = Value.falseV
      · have h2' : f'.value = Value.falseV := (hv h1).mp h2
        simp only [findLoop]
        rw [if_pos h1, if_pos h1', if_pos h2, if_pos h2']
      · have h2' : f'.value ≠ Value.falseV := fun hc => h2 ((hv h1).mpr hc)
        simp only [findLoop]
        rw [if_pos h1, if_pos h1', if_neg h2, if_neg h2']
        cases t <;> exact ih _
    · have h1' : f'.key ≠ Value.undefined := hk ▸ h1
      by_cases h3 : wrenValuesEqual f.key k = true
      · have h3' : wrenValuesEqual f'.key k = true := hk ▸ h3
        simp only [findLoop]
        rw [if_neg h1, if_neg h1', if_pos h3, if_pos h3']
      · have h3' : ¬ (wrenValuesEqual f'.key k = true) := hk ▸ h3
        simp only [findLoop]
        rw [if_neg h1, if_neg h1', if_neg h3, if_neg h3']
        exact ih _

theorem forall2_map_self {α : Type} (R : α → α → Prop) (f : α → α) :
    ∀ (l : List α), (∀ q ∈ l, R q (f q)) → List.Forall₂ R l (l.map f) := by
  intro l
  induction l with
  | nil => intro _; exact List.Forall₂.nil
  | cons a t ih =>
    intro h
    exact List.Forall₂.cons (h a (by simp)) (ih (fun q hq => h q (by simp [hq])))

theorem walkList_mem_spec (entries : List MapEntry) (cap s : Nat)
    (q : Nat × MapEntry) (hq : q ∈ walkList entries cap s) :
    q.1 < cap ∧ q.2 = entries.getD q.1 default := by
  unfold walkList at hq
  obtain ⟨j, hj, hq2⟩ := List.mem_map.mp hq
  have hjr := List.mem_range.mp hj
  have hcap : 0 < cap := by omega
  rw [← hq2]
  exact ⟨Nat.mod_lt _ hcap, rfl⟩

theorem walkList_nodup_fst (entries : List MapEntry) (cap s : Nat) :
    ((walkList entries cap s).map Prod.fst).Nodup := by
  unfold walkList
  rw [List.map_map]
  apply List.Nodup.map_on
  · intro x hx y hy hxy
    simp only [Function.comp] at hxy
    have hx' := List.mem_range.mp hx
    have hy' := List.mem_range.mp hy
    have hm : Nat.ModEq cap (s + x) (s + y) := hxy
    have hm2 : Nat.ModEq cap x y := Nat.ModEq.add_left_cancel' s hm
    have hm3 : x % cap = y % cap := hm2
    rwa [Nat.mod_eq_of_lt hx', Nat.mod_eq_of_lt hy'] at hm3
  · exact List.nodup_range cap

theorem walkList_mem_of_lt (entries : List MapEntry) (cap s i : Nat)
    (hi : i < cap) :
    (i, entries.getD i default) ∈ walkList entries cap s := by
  have hcap : 0 < cap := by omega
  have hrlt : s % cap < cap := Nat.mod_lt _ hcap
  unfold walkList
  by_cases hcase : s % cap ≤ i
  · refine List.mem_map.mpr ⟨i - s % cap, List.mem_range.mpr (by omega), ?_⟩
    have hidx : (s + (i - s % cap)) % cap = i := by
      rw [Nat.add_mod, Nat.mod_eq_of_lt (show i - s % cap < cap by omega),
        show s % cap + (i - s % cap) = i by omega]
      exact Nat.mod_eq_of_lt hi
    rw [hidx]
  · refine List.mem_map.mpr
      ⟨cap + i - s % cap, List.mem_range.mpr (by omega), ?_⟩
    have hidx : (s + (cap + i - s % cap)) % cap = i := by
      rw [Nat.add_mod, Nat.mod_eq_of_lt (show cap + i - s % cap < cap by omega),
        show s % cap + (cap + i - s % cap) = cap + i by omega, Nat.add_mod_left]
      exact Nat.mod_eq_of_lt hi
    rw [hidx]

theorem walkList_set (entries : List MapEntry) (cap s p : Nat) (x : MapEntry)
    (hlen : entries.length = cap) (hp : p < cap) :
    walkList (entries.set p x) cap s =
      (walkList entries cap s).map
        (fun q => if q.1 = p then (p, x) else q) := by
  unfold walkList
  rw [List.map_map]
  apply List.map_congr_left
  intro j _
  simp only [Function.comp]
  by_cases hcase : (s + j) % cap = p
  · rw [hcase, if_pos rfl]
    have : (entries.set p x).getD p default = x := by
      simp [List.getD_eq_getElem?_getD, List.getElem?_set_self, hlen ▸ hp]
    rw [this]
  · rw [if_neg hcase]
    have : (entries.set p x).getD ((s + j) % cap) default =
        entries.getD ((s + j) % cap) default := by
      simp [List.getD_eq_getElem?_getD,
        List.getElem?_set_ne (fun hc => hcase (hc.symm))]
    rw [this]

/-! ### findEntry-level lemmas -/

theorem findEntry_found_shape (entries : List MapEntry) (cap : Nat)
    (k : Value) (i : Nat)
    (h : findEntry entries cap k = FindEntryResult.foundAt i) :
    i < cap ∧ (entries.getD i default).key = k ∧
      (entries.getD i default).key ≠ Value.undefined := by
  unfold findEntry at h
  by_cases hcap : cap = 0
  · rw [if_pos hcap] at h
    exact (FindEntryResult.noConfusion h)
  · rw [if_neg hcap] at h
    obtain ⟨pre, e, post, hs, _, hk, hu⟩ := findLoop_found_elim k _ none i h
    have hmem : (i, e) ∈ walkList entries cap (hashValue k % cap) := by
      rw [hs]; simp
    have hspec := walkList_mem_spec _ _ _ _ hmem
    refine ⟨hspec.1, ?_, ?_⟩
    · rw [← hspec.2]; exact hk
    · rw [← hspec.2]; exact hu

theorem findEntry_insert_shape (entries : List MapEntry) (cap : Nat)
    (k : Value) (p : Nat)
    (h : findEntry entries cap k = FindEntryResult.insertAt p) :
    p < cap ∧ (entries.getD p default).key = Value.undefined := by
  unfold findEntry at h
  by_cases hcap : cap = 0
  · rw [if_pos hcap] at h
    exact (FindEntryResult.noConfusion h)
  · rw [if_neg hcap] at h
    obtain ⟨pre, e, post, hs, _, hu⟩ := findLoop_insert_elim k _ p h
    have hmem : (p, e) ∈ walkList entries cap (hashValue k % cap) := by
      rw [hs]; simp
    have hspec := walkList_mem_spec _ _ _ _ hmem
    exact ⟨hspec.1, by rw [← hspec.2]; exact hu⟩

theorem findEntry_after_insert (entries : List MapEntry) (cap : Nat)
    (k v : Value) (p : Nat) (hlen : entries.length = cap)
    (hk : k ≠ Value.undefined)
    (h : findEntry entries cap k = FindEntryResult.insertAt p) :
    findEntry (entries.set p ⟨k, v⟩) cap k = FindEntryResult.foundAt p := by
  have hshape := findEntry_insert_shape entries cap k p h
  unfold findEntry at h ⊢
  by_cases hcap : cap = 0
  · rw [if_pos hcap] at h
    exact (FindEntryResult.noConfusion h)
  · rw [if_neg hcap] at h ⊢
    obtain ⟨pre, e, post, hs, hpre, _⟩ := findLoop_insert_elim k _ p h
    rw [walkList_set entries cap _ p ⟨k, v⟩ hlen hshape.1, hs,
      List.map_append, List.map_cons]
    simp only [if_pos rfl]
    have hnodup := walkList_nodup_fst entries cap (hashValue k % cap)
    rw [hs, List.map_append, List.map_cons] at hnodup
    have hdisj := List.disjoint_of_nodup_append hnodup
    have hnotp : ∀ q ∈ pre, q.1 ≠ p := by
      intro q hq hqp
      have hmem : q.1 ∈ List.map Prod.fst pre := List.mem_map_of_mem Prod.fst hq
      rw [hqp] at hmem
      exact hdisj hmem (by simp)
    have hpre_eq : pre.map (fun q => if q.1 = p then (p, ⟨k, v⟩) else q) =
        pre := by
      have hid : pre.map (fun q => if q.1 = p then (p, ⟨k, v⟩) else q) =
          pre.map id := by
        apply List.map_congr_left
        intro q hq
        rw [if_neg (hnotp q hq)]
        rfl
      rw [hid, List.map_id]
    rw [hpre_eq]
    exact findLoop_found_intro k pre p ⟨k, v⟩ _ none
      (fun q hq => Or.inr (hpre q hq)) rfl hk

theorem findEntry_set_other (entries : List MapEntry) (cap : Nat) (q : Value)
    (i p : Nat) (x : MapEntry) (hlen : entries.length = cap)
    (hq : findEntry entries cap q = FindEntryResult.foundAt i)
    (hp : p < cap) (hip : i ≠ p)
    (hcont : (x.key = Value.undefined ∧ x.value ≠ Value.falseV) ∨
      (x.key ≠ Value.undefined ∧ x.key ≠ q))
    (hold : (entries.getD p default).key ≠ Value.undefined →
      (entries.getD p default).key ≠ q) :
    findEntry (entries.set p x) cap q = FindEntryResult.foundAt i := by
  unfold findEntry at hq ⊢
  by_cases hcap : cap = 0
  · rw [if_pos hcap] at hq
    exact (FindEntryResult.noConfusion hq)
  · rw [if_neg hcap] at hq ⊢
    obtain ⟨pre, e, post, hs, hpre, hk, hu⟩ := findLoop_found_elim q _ none i hq
    rw [walkList_set entries cap _ p x hlen hp, hs, List.map_append,
      List.map_cons]
    have hie : (if ((i, e) : Nat × MapEntry).1 = p then (p, x) else (i, e)) =
        (i, e) := by
      rw [if_neg]
      simpa using hip
    rw [hie]
    refine findLoop_found_intro q _ i e _ none ?_ hk hu
    intro u hu2
    obtain ⟨w, hw, hwu⟩ := List.mem_map.mp hu2
    by_cases hcase : w.1 = p
    · rw [← hwu, if_pos hcase]
      exact hcont
    · rw [← hwu, if_neg hcase]
      exact hpre w hw

theorem findEntry_set_live_value (entries : List MapEntry) (cap i : Nat)
    (v : Value) (q : Value) (hlen : entries.length = cap) (hi : i < cap)
    (hlive : (entries.getD i default).key ≠ Value.undefined) :
    findEntry (entries.set i ⟨(entries.getD i default).key, v⟩) cap q =
      findEntry entries cap q := by
  unfold findEntry
  by_cases hcap : cap = 0
  · rw [if_pos hcap, if_pos hcap]
  · rw [if_neg hcap, if_neg hcap]
    apply Eq.symm
    apply findLoop_forall2
    rw [walkList_set entries cap _ i _ hlen hi]
    apply forall2_map_self
    intro u hu
    have hspec := walkList_mem_spec _ _ _ _ hu
    by_cases hcase : u.1 = i
    · rw [if_pos hcase]
      refine ⟨by rw [hcase], ?_, ?_⟩
      · simp only
        rw [hspec.2, hcase]
      · intro hund
        rw [hspec.2, hcase] at hund
        exact absurd hund hlive
    · rw [if_neg hcase]
      exact ⟨rfl, rfl, fun _ => Iff.rfl⟩

theorem findEntry_no_live (entries : List MapEntry) (cap : Nat) (k : Value)
    (hno : ∀ j < cap, (entries.getD j default).key ≠ Value.undefined →
      (entries.getD j default).key ≠ k) (i : Nat) :
    findEntry entries cap k ≠ FindEntryResult.foundAt i := by
  unfold findEntry
  by_cases hcap : cap = 0
  · rw [if_pos hcap]
    exact fun h => FindEntryResult.noConfusion h
  · rw [if_neg hcap]
    apply findLoop_no_found
    intro u hu
    have hspec := walkList_mem_spec _ _ _ _ hu
    rw [hspec.2]
    exact hno u.1 hspec.1

theorem findEntry_has_und (entries : List MapEntry) (cap : Nat) (k : Value)
    (hex : ∃ j < cap, (entries.getD j default).key = Value.undefined) :
    findEntry entries cap k ≠ FindEntryResult.noEntry := by
  obtain ⟨j, hj, hund⟩ := hex
  unfold findEntry
  rw [if_neg (by omega : ¬ cap = 0)]
  apply findLoop_ne_noEntry
  exact ⟨(j, entries.getD j default),
    walkList_mem_of_lt entries cap _ j hj, hund⟩

/-! ### Counting lemmas -/

theorem countP_set {α : Type} [Inhabited α] (l : List α) (p : α → Bool)
    (i : Nat) (x : α) (h : i < l.length) :
    (l.set i x).countP p + (if p (l.getD i default) then 1 else 0) =
      l.countP p + (if p x then 1 else 0) := by
  induction l generalizing i with
  | nil => simp at h
  | cons a t ih =>
    cases i with
    | zero =>
      by_cases hpa : p a <;> by_cases hpx : p x <;>
        simp [hpa, hpx, List.countP_cons]
    | succ n =>
      have hn : n < t.length := by simpa using h
      have hrec := ih n hn
      simp only [List.set_cons_succ, List.countP_cons, List.getD_cons_succ]
      omega

theorem liveCount_lt_length (entries : List MapEntry)
    (h : liveCount entries < entries.length) :
    ∃ j < entries.length, (entries.getD j default).key = Value.undefined := by
  unfold liveCount at h
  by_contra hno
  push_neg at hno
  have hall : ∀ e ∈ entries, e.key ≠ Value.undefined := by
    intro e he
    obtain ⟨j, hj, hje⟩ := List.mem_iff_getElem.mp he
    have h2 := hno j hj
    rw [List.getD_eq_getElem?_getD, List.getElem?_eq_getElem hj] at h2
    simpa [hje] using h2
  have : entries.countP (fun e => e.key ≠ Value.undefined) = entries.length := by
    rw [List.countP_eq_length]
    intro e he
    simpa using hall e he
  omega

theorem liveCount_set (entries : List MapEntry) (i : Nat) (x : MapEntry)
    (h : i < entries.length) :
    liveCount (entries.set i x) +
        (if (entries.getD i default).key ≠ Value.undefined then 1 else 0) =
      liveCount entries + (if x.key ≠ Value.undefined then 1 else 0) := by
  unfold liveCount
  have := countP_set entries (fun e => e.key ≠ Value.undefined) i x h
  simpa using this

theorem liveCount_le_length (entries : List MapEntry) :
    liveCount entries ≤ entries.length :=
  List.countP_le_length _

theorem getD_set_self {α : Type} [Inhabited α] (l : List α) (i : Nat) (x : α)
    (h : i < l.length) : (l.set i x).getD i default = x := by
  simp [List.getD_eq_getElem?_getD, List.getElem?_set_self, h]

theorem getD_set_other {α : Type} [Inhabited α] (l : List α) (i j : Nat)
    (x : α) (h : i ≠ j) : (l.set i x).getD j default = l.getD j default := by
  simp [List.getD_eq_getElem?_getD, List.getElem?_set_ne h]

theorem getD_replicate (n j : Nat) (hj : j < n) :
    (List.replicate n (default : MapEntry)).getD j default = default := by
  rw [List.getD_eq_getElem?_getD, List.getElem?_eq_getElem (by simpa using hj)]
  simp

theorem liveCount_replicate (n : Nat) :
    liveCount (List.replicate n (default : MapEntry)) = 0 := by
  unfold liveCount
  rw [List.countP_eq_zero]
  intro e he
  rw [List.eq_of_mem_replicate he]
  simp [default]

/-! ### insertEntry and the resize build -/

theorem insertEntry_of_insertAt (entries : List MapEntry) (cap : Nat)
    (k v : Value) (p : Nat)
    (h : findEntry entries cap k = FindEntryResult.insertAt p) :
    insertEntry entries cap k v = some (entries.set p ⟨k, v⟩, true) := by
  unfold insertEntry
  rw [h]

theorem insertEntry_of_foundAt (entries : List MapEntry) (cap : Nat)
    (k v : Value) (i : Nat)
    (h : findEntry entries cap k = FindEntryResult.foundAt i) :
    insertEntry entries cap k v =
      some (entries.set i ⟨(entries.getD i default).key, v⟩, false) := by
  unfold insertEntry
  rw [h]

/-- Inserting a fresh, valid key into a findable table with a free slot
yields a findable table containing it, bumping the live count; slots other
than the insertion slot are untouched and no other slot holds the key. -/
theorem insertEntry_valid (entries : List MapEntry) (cap : Nat) (k v : Value)
    (hlen : entries.length = cap) (hfind : Findable entries cap)
    (hroom : liveCount entries < cap) (hk : k ≠ Value.undefined) :
    ∃ entries1 isNew p,
      insertEntry entries cap k v = some (entries1, isNew) ∧
      entries1.length = cap ∧ Findable entries1 cap ∧
      liveCount entries1 =
        liveCount entries + (if isNew then 1 else 0) ∧
      findEntry entries1 cap k = FindEntryResult.foundAt p ∧ p < cap ∧
      entries1.getD p default = ⟨k, v⟩ ∧
      (∀ j < cap, j ≠ p → entries1.getD j default = entries.getD j default) ∧
      (∀ j < cap, j ≠ p → (entries1.getD j default).key ≠ k) ∧
      (isNew = true ↔ ∀ j < cap, (entries.getD j default).key ≠ k) ∧
      (isNew = true → (entries.getD p default).key = Value.undefined) := by
  have hcap : cap ≠ 0 := by omega
  have hund : ∃ j < cap, (entries.getD j default).key = Value.undefined := by
    have := liveCount_lt_length entries (by omega)
    obtain ⟨j, hj, hju⟩ := this
    exact ⟨j, by omega, hju⟩
  cases hfe : findEntry entries cap k with
  | noEntry => exact absurd hfe (findEntry_has_und entries cap k hund)
  | foundAt i =>
    have hshape := findEntry_found_shape entries cap k i hfe
    have hkey : (entries.getD i default).key = k := hshape.2.1
    refine ⟨entries.set i ⟨(entries.getD i default).key, v⟩, false, i,
      insertEntry_of_foundAt entries cap k v i hfe, by simpa using hlen,
      ?_, ?_, ?_, hshape.1, ?_, ?_, ?_, ?_⟩
    · intro j hj hjl
      have hkeys : ∀ j2 < cap, ((entries.set i
          ⟨(entries.getD i default).key, v⟩).getD j2 default).key =
          (entries.getD j2 default).key := by
        intro j2 hj2
        by_cases hcase : i = j2
        · subst hcase
          rw [getD_set_self entries i _ (by omega)]
        · rw [getD_set_other entries i j2 _ hcase]
      rw [hkeys j hj]
      rw [hkeys j hj] at hjl
      rw [findEntry_set_live_value entries cap i v _ hlen hshape.1 hshape.2.2]
      exact hfind j hj hjl
    · have hls := liveCount_set entries i ⟨(entries.getD i default).key, v⟩
        (by omega)
      rw [if_pos hshape.2.2] at hls
      have hgoal : (if (false = true) then 1 else 0) = 0 := by norm_num
      rw [hgoal]
      omega
    · rw [findEntry_set_live_value entries cap i v _ hlen hshape.1 hshape.2.2]
      exact hfe
    · rw [getD_set_self entries i _ (by omega), hkey]
    · intro j _ hji
      exact getD_set_other entries i j _ (fun hc => hji hc.symm)
    · intro j hj hji
      rw [getD_set_other entries i j _ (fun hc => hji hc.symm)]
      intro hc
      have : findEntry entries cap ((entries.getD j default).key) =
          FindEntryResult.foundAt j :=
        hfind j hj (by rw [hc]; exact hk)
      rw [hc] at this
      rw [hfe] at this
      injection this with h2
      exact hji h2.symm
    · refine ⟨?_, ?_⟩
      · constructor
        · intro hc
          exact absurd hc (by simp)
        · intro hall
          exact absurd hkey (hall i hshape.1)
      · intro hc
        exact absurd hc (by simp)
  | insertAt p =>
    have hshape := findEntry_insert_shape entries cap k p hfe
    have hnotlive : ∀ j < cap, (entries.getD j default).key ≠ k := by
      intro j hj hc
      by_cases hlive : (entries.getD j default).key = Value.undefined
      · rw [hc] at hlive
        exact hk hlive
      · have := hfind j hj hlive
        rw [hc, hfe] at this
        exact FindEntryResult.noConfusion this
    refine ⟨entries.set p ⟨k, v⟩, true, p,
      insertEntry_of_insertAt entries cap k v p hfe, by simpa using hlen,
      ?_, ?_, findEntry_after_insert entries cap k v p hlen hk hfe,
      hshape.1, getD_set_self entries p _ (by omega), ?_, ?_,
      ⟨fun _ => hnotlive, fun _ => rfl⟩, fun _ => hshape.2⟩
    · intro j hj hjl
      by_cases hcase : j = p
      · subst hcase
        rw [getD_set_self entries j _ (by omega)] at hjl ⊢
        exact findEntry_after_insert entries cap k v j hlen hk hfe
      · rw [getD_set_other entries p j _ (fun hc => hcase hc.symm)] at hjl ⊢
        have hold := hfind j hj hjl
        exact findEntry_set_other entries cap _ j p ⟨k, v⟩ hlen hold
          hshape.1 hcase (Or.inr ⟨hk, fun hc => hnotlive j hj hc.symm⟩)
          (fun hcc => absurd hshape.2 hcc)
    · have hls := liveCount_set entries p ⟨k, v⟩ (by omega)
      rw [if_neg (not_not_intro hshape.2), if_pos (show (⟨k, v⟩ :
        MapEntry).key ≠ Value.undefined from hk)] at hls
      have hgoal : (if (true = true) then 1 else 0) = 1 := by norm_num
      rw [hgoal]
      omega
    · intro j _ hjp
      exact getD_set_other entries p j _ (fun hc => hjp hc.symm)
    · intro j hj hjp
      rw [getD_set_other entries p j _ (fun hc => hjp hc.symm)]
      exact hnotlive j hj

theorem foldl_resizeInsert_filter (cap : Nat) (l : List MapEntry) :
    ∀ acc : Option (List MapEntry),
      l.foldl (resizeInsert cap) acc =
        (l.filter (fun e => e.key ≠ Value.undefined)).foldl
          (resizeInsert cap) acc := by
  induction l with
  | nil => intro acc; rfl
  | cons e t ih =>
    intro acc
    by_cases he : e.key = Value.undefined
    · rw [List.foldl_cons, List.filter_cons]
      have hskip : resizeInsert cap acc e = acc := by
        cases acc with
        | none => rfl
        | some entries => simp [resizeInsert, he]
      rw [hskip, if_neg (by simp [he])]
      exact ih acc
    · rw [List.foldl_cons, List.filter_cons, if_pos (by simp [he]),
        List.foldl_cons]
      exact ih _

/-- Re-inserting a list of live entries with pairwise-distinct keys, none
already present, into a findable table with enough free slots succeeds and
yields a findable table whose live entries are exactly the old ones plus
the inserted ones. -/
theorem build_insert (cap : Nat) :
    ∀ (pairs T : List MapEntry),
      T.length = cap →
      (∀ e ∈ pairs, e.key ≠ Value.undefined) →
      List.Pairwise (fun a b : MapEntry => a.key ≠ b.key) pairs →
      (∀ e ∈ pairs, ∀ j < cap, (T.getD j default).key ≠ e.key) →
      Findable T cap →
      liveCount T + pairs.length ≤ cap →
      ∃ T2, pairs.foldl (resizeInsert cap) (some T) = some T2 ∧
        T2.length = cap ∧ Findable T2 cap ∧
        liveCount T2 = liveCount T + pairs.length ∧
        (∀ f : MapEntry, f.key ≠ Value.undefined →
          ((∃ j < cap, T2.getD j default = f) ↔
            ((∃ j < cap, T.getD j default = f) ∨ f ∈ pairs))) := by
  intro pairs
  induction pairs with
  | nil =>
    intro T hlen _ _ _ hfind hroom
    exact ⟨T, rfl, hlen, hfind, by simp, fun f _ => by simp⟩
  | cons e rest ih =>
    intro T hlen hlivepairs hpw hfresh hfind hroom
    have he : e.key ≠ Value.undefined := hlivepairs e (by simp)
    have hroomT : liveCount T < cap := by
      simp only [List.length_cons] at hroom
      omega
    obtain ⟨T1, isNew, p, hins, hlen1, hfind1, hlc1, hfound1, hp, hgetp,
      hother, hnok, hisnew, hwasund⟩ :=
      insertEntry_valid T cap e.key e.value hlen hfind hroomT he
    have hnew : isNew = true := hisnew.mpr (fun j hj hc =>
      hfresh e (by simp) j hj hc)
    subst hnew
    have hund_p : (T.getD p default).key = Value.undefined := hwasund rfl
    have heta : (⟨e.key, e.value⟩ : MapEntry) = e := rfl
    have hstep : List.foldl (resizeInsert cap) (some T) (e :: rest) =
        List.foldl (resizeInsert cap) (some T1) rest := by
      rw [List.foldl_cons]
      have : resizeInsert cap (some T) e = some T1 := by
        simp [resizeInsert, he, hins]
      rw [this]
    have hfresh1 : ∀ f ∈ rest, ∀ j < cap, (T1.getD j default).key ≠ f.key := by
      intro f hf j hj
      by_cases hcase : j = p
      · subst hcase
        rw [hgetp]
        exact (List.pairwise_cons.mp hpw).1 f hf
      · rw [hother j hj hcase]
        exact hfresh f (by simp [hf]) j hj
    have hone : (if (true = true) then 1 else 0) = 1 := by norm_num
    rw [hone] at hlc1
    have hroom1 : liveCount T1 + rest.length ≤ cap := by
      rw [hlc1]
      simp only [List.length_cons] at hroom
      omega
    obtain ⟨T2, hfold2, hlen2, hfind2, hlc2, hcont2⟩ :=
      ih T1 hlen1 (fun f hf => hlivepairs f (by simp [hf]))
        (List.pairwise_cons.mp hpw).2 hfresh1 hfind1 hroom1
    refine ⟨T2, by rw [hstep]; exact hfold2, hlen2, hfind2, ?_, ?_⟩
    · rw [hlc2, hlc1]
      simp only [List.length_cons]
      omega
    · intro f hf
      rw [hcont2 f hf]
      constructor
      · intro hcase
        rcases hcase with ⟨j, hj, hje⟩ | hmem
        · by_cases hjp : j = p
          · subst hjp
            rw [hgetp] at hje
            right
            rw [heta] at hje
            simp [← hje]
          · rw [hother j hj hjp] at hje
            exact Or.inl ⟨j, hj, hje⟩
        · exact Or.inr (by simp [hmem])
      · intro hcase
        rcases hcase with ⟨j, hj, hje⟩ | hmem
        · by_cases hjp : j = p
          · subst hjp
            rw [hje] at hund_p
            exact absurd hund_p hf
          · exact Or.inl ⟨j, hj, by rw [hother j hj hjp]; exact hje⟩
        · rcases List.mem_cons.mp hmem with hfe | hfr
          · subst hfe
            exact Or.inl ⟨p, hp, by rw [hgetp]⟩
          · exact Or.inr hfr

theorem getD_eq_getElem (entries : List MapEntry) (j : Nat)
    (hj : j < entries.length) : entries.getD j default = entries[j] := by
  rw [List.getD_eq_getElem?_getD, List.getElem?_eq_getElem hj]
  rfl

theorem mem_iff_slot (entries : List MapEntry) (f : MapEntry) :
    f ∈ entries ↔ ∃ j < entries.length, entries.getD j default = f := by
  constructor
  · intro h
    obtain ⟨j, hj, hje⟩ := List.mem_iff_getElem.mp h
    exact ⟨j, hj, by rw [getD_eq_getElem entries j hj]; exact hje⟩
  · rintro ⟨j, hj, hje⟩
    rw [← hje, getD_eq_getElem entries j hj]
    exact List.getElem_mem hj

/-- On a findable table, the live entries carry pairwise-distinct keys. -/
theorem findable_pairwise (entries : List MapEntry) (cap : Nat)
    (hlen : entries.length = cap) (hfind : Findable entries cap) :
    List.Pairwise (fun a b : MapEntry => a.key ≠ b.key)
      (entries.filter (fun e => e.key ≠ Value.undefined)) := by
  have hpw : List.Pairwise (fun a b : MapEntry =>
      a.key ≠ Value.undefined → b.key ≠ Value.undefined → a.key ≠ b.key)
      entries := by
    rw [List.pairwise_iff_getElem]
    intro i j hi hj hij ha hb hc
    have hgi := getD_eq_getElem entries i hi
    have hgj := getD_eq_getElem entries j hj
    have hfi := hfind i (by omega) (by rw [hgi]; exact ha)
    have hfj := hfind j (by omega) (by rw [hgj]; exact hb)
    rw [hgi] at hfi
    rw [hgj, ← hc, ← hgi, hgi] at hfj
    rw [hfi] at hfj
    injection hfj with h2
    omega
  refine List.Pairwise.imp_of_mem ?_ (List.Pairwise.filter _ hpw)
  intro a b ha hb hr
  exact hr (by simpa using (List.mem_filter.mp ha).2)
    (by simpa using (List.mem_filter.mp hb).2)

/-- resizeMap on a findable table with capacity at or above the live count
succeeds and preserves exactly the live entries, the live count, and the
stored count, producing a findable table of the requested capacity. -/
theorem resizeMap_spec (m : ObjMap) (cap2 : Nat)
    (hlen : m.entries.length = m.capacity)
    (hfind : Findable m.entries m.capacity)
    (hroom : liveCount m.entries ≤ cap2) :
    ∃ m2, resizeMap m cap2 = some m2 ∧
      m2.capacity = cap2 ∧ m2.count = m.count ∧ m2.entries.length = cap2 ∧
      Findable m2.entries cap2 ∧ liveCount m2.entries = liveCount m.entries ∧
      (∀ f : MapEntry, f.key ≠ Value.undefined →
        ((∃ j < cap2, m2.entries.getD j default = f) ↔
          (∃ j < m.capacity, m.entries.getD j default = f))) := by
  have hfilterlen : (m.entries.filter
      (fun e => e.key ≠ Value.undefined)).length = liveCount m.entries := by
    unfold liveCount
    rw [List.countP_eq_length_filter]
  have hfreshT : Findable (List.replicate cap2 (default : MapEntry)) cap2 := by
    intro j hj hlive
    rw [getD_replicate cap2 j hj] at hlive
    exact absurd rfl hlive
  obtain ⟨T2, hfold, hlen2, hfind2, hlc2, hcont2⟩ :=
    build_insert cap2 (m.entries.filter (fun e => e.key ≠ Value.undefined))
      (List.replicate cap2 default)
      (by simp)
      (fun e he => by simpa using (List.mem_filter.mp he).2)
      (findable_pairwise m.entries m.capacity hlen hfind)
      (fun e he j hj => by
        rw [getD_replicate cap2 j hj]
        intro hc
        exact (by simpa using (List.mem_filter.mp he).2 : e.key ≠
          Value.undefined) hc.symm)
      hfreshT
      (by rw [liveCount_replicate, hfilterlen]; omega)
  refine ⟨⟨cap2, m.count, T2⟩, ?_, rfl, rfl, hlen2, hfind2, ?_, ?_⟩
  · unfold resizeMap
    rw [foldl_resizeInsert_filter, hfold]
  · rw [hlc2, liveCount_replicate, hfilterlen]
    omega
  · intro f hf
    have h2 := hcont2 f hf
    constructor
    · intro ⟨j, hj, hje⟩
      rcases (h2.mp ⟨j, hj, hje⟩) with ⟨j2, hj2, hje2⟩ | hmem
      · rw [getD_replicate cap2 j2 hj2] at hje2
        rw [← hje2] at hf
        exact absurd rfl hf
      · have := (List.mem_filter.mp hmem).1
        rw [mem_iff_slot] at this
        obtain ⟨j3, hj3, hje3⟩ := this
        exact ⟨j3, by omega, hje3⟩
    · intro ⟨j, hj, hje⟩
      apply h2.mpr
      right
      rw [List.mem_filter]
      constructor
      · rw [mem_iff_slot]
        exact ⟨j, by omega, hje⟩
      · simpa using hf

theorem wrenMapGet_of_found (m : ObjMap) (k : Value) (p : Nat)
    (hfound : findEntry m.entries m.capacity k = FindEntryResult.foundAt p) :
    wrenMapGet m k = (m.entries.getD p default).value := by
  unfold wrenMapGet
  rw [hfound]

theorem wrenMapGet_of_not_found (m : ObjMap) (k : Value)
    (h : ∀ i, findEntry m.entries m.capacity k ≠ FindEntryResult.foundAt i) :
    wrenMapGet m k = Value.undefined := by
  unfold wrenMapGet
  cases hf : findEntry m.entries m.capacity k with
  | foundAt i => exact absurd hf (h i)
  | insertAt i => rfl
  | noEntry => rfl

theorem liveCount_pos (entries : List MapEntry) (p : Nat)
    (hp : p < entries.length)
    (hlive : (entries.getD p default).key ≠ Value.undefined) :
    1 ≤ liveCount entries := by
  unfold liveCount
  have hmem : entries.getD p default ∈ entries := by
    rw [getD_eq_getElem entries p hp]
    exact List.getElem_mem hp
  have h2 : 0 < entries.countP (fun e => e.key ≠ Value.undefined) :=
    List.countP_pos.mpr ⟨entries.getD p default, hmem, by simpa using hlive⟩
  omega

/-- wrenMapSet on a consistent map with a valid key: the insertion
succeeds, produces a consistent map in which the key probes to a slot
holding exactly (key, value), no other slot holds the key, and the
capacity changes exactly per the 75 percent growth rule. -/
theorem wrenMapSet_spec (m : ObjMap) (k v : Value) (hm : ValidMap m)
    (hk : k ≠ Value.undefined) :
    ∃ m1 p, wrenMapSet m k v = some m1 ∧ ValidMap m1 ∧
      findEntry m1.entries m1.capacity k = FindEntryResult.foundAt p ∧
      m1.entries.getD p default = ⟨k, v⟩ ∧ p < m1.capacity ∧
      (∀ j < m1.capacity, j ≠ p → (m1.entries.getD j default).key ≠ k) ∧
      1 ≤ m1.count ∧
      m1.capacity = (if m.count + 1 > m.capacity * MAP_LOAD_PERCENT / 100
        then (if m.capacity * GROW_FACTOR < MIN_CAPACITY then MIN_CAPACITY
          else m.capacity * GROW_FACTOR) else m.capacity) := by
  obtain ⟨hlen, hcount, hfind⟩ := hm
  by_cases hg : m.count + 1 > m.capacity * MAP_LOAD_PERCENT / 100
  · have hcaple : m.capacity ≤
        (if m.capacity * GROW_FACTOR < MIN_CAPACITY then MIN_CAPACITY
          else m.capacity * GROW_FACTOR) := by
      unfold MIN_CAPACITY GROW_FACTOR
      split <;> omega
    have hroom : liveCount m.entries ≤
        (if m.capacity * GROW_FACTOR < MIN_CAPACITY then MIN_CAPACITY
          else m.capacity * GROW_FACTOR) := by
      have := liveCount_le_length m.entries
      omega
    obtain ⟨mr, hres, hrcap, hrcount, hrlen, hrfind, hrlc, _⟩ :=
      resizeMap_spec m _ hlen hfind hroom
    have hcountle : m.count ≤ m.capacity := by
      have := liveCount_le_length m.entries
      omega
    have hroomr : liveCount mr.entries < mr.capacity := by
      rw [hrlc, hrcap, ← hcount]
      unfold MIN_CAPACITY GROW_FACTOR
      unfold MIN_CAPACITY GROW_FACTOR at hcaple
      split <;> rename_i hsplit
      · omega
      · simp only [if_neg hsplit] at hcaple
        omega
    obtain ⟨E1, isNew, p, hins, hlen1, hfind1, hlc1, hfound1, hp1, hget1,
      hother1, hnok1, _, _⟩ :=
      insertEntry_valid mr.entries mr.capacity k v (hrlen.trans hrcap.symm)
        (by rw [hrcap]; exact hrfind) hroomr hk
    have hset : wrenMapSet m k v = some
        { capacity := mr.capacity
          count := if isNew then mr.count + 1 else mr.count
          entries := E1 } := by
      unfold wrenMapSet
      rw [if_pos hg]
      simp only [hres, Option.bind_eq_bind, Option.some_bind, hins]
      rfl
    have hlivem1 : liveCount E1 =
        (if isNew then mr.count + 1 else mr.count) := by
      rw [hlc1, hrlc, ← hcount, hrcount]
      cases isNew <;> simp
    refine ⟨_, p, hset, ⟨hlen1, hlivem1.symm, hfind1⟩, hfound1, hget1, hp1,
      hnok1, ?_, ?_⟩
    · have hpos := liveCount_pos E1 p (by omega)
        (by rw [hget1]; exact hk)
      simp only
      omega
    · simp only [if_pos hg]
      exact hrcap
  · have hg75 : ¬ m.count + 1 > m.capacity * 75 / 100 := hg
    have hcappos : 1 ≤ m.capacity := by
      by_contra hc
      have hzero : m.capacity = 0 := by omega
      rw [hzero] at hg75
      simp at hg75
    have hroomm : liveCount m.entries < m.capacity := by
      push_neg at hg75
      omega
    obtain ⟨E1, isNew, p, hins, hlen1, hfind1, hlc1, hfound1, hp1, hget1,
      hother1, hnok1, _, _⟩ :=
      insertEntry_valid m.entries m.capacity k v hlen hfind hroomm hk
    have hset : wrenMapSet m k v = some
        { capacity := m.capacity
          count := if isNew then m.count + 1 else m.count
          entries := E1 } := by
      unfold wrenMapSet
      rw [if_neg hg]
      simp only [Option.bind_eq_bind, Option.some_bind, hins, pure]
    have hlivem1 : liveCount E1 =
        (if isNew then m.count + 1 else m.count) := by
      rw [hlc1, ← hcount]
      cases isNew <;> simp
    refine ⟨_, p, hset, ⟨hlen1, hlivem1.symm, hfind1⟩, hfound1, hget1, hp1,
      hnok1, ?_, ?_⟩
    · have hpos := liveCount_pos E1 p (by omega)
        (by rw [hget1]; exact hk)
      simp only
      omega
    · rw [if_neg hg]

/-- wrenMapRemoveKey on a consistent map holding the key at exactly one
slot: the slot is tombstoned, the stored value returned, the key no longer
found — wrenMapGet yields the Undefined sentinel — and the entry array is
freed exactly when the count reaches zero respectively halved exactly per
the shrink rule. -/
theorem wrenMapRemoveKey_spec (m : ObjMap) (k : Value) (p : Nat)
    (hlen : m.entries.length = m.capacity)
    (hfind : Findable m.entries m.capacity)
    (hcount : m.count = liveCount m.entries)
    (hfound : findEntry m.entries m.capacity k = FindEntryResult.foundAt p)
    (huniq : ∀ j < m.capacity, j ≠ p → (m.entries.getD j default).key ≠ k) :
    ∃ m2, wrenMapRemoveKey m k =
        some (m2, (m.entries.getD p default).value) ∧
      wrenMapGet m2 k = Value.undefined ∧
      (m2.capacity = if m.count - 1 = 0 then 0
        else if m.capacity > MIN_CAPACITY ∧
            m.count - 1 < m.capacity / GROW_FACTOR * MAP_LOAD_PERCENT / 100
          then (if m.capacity / GROW_FACTOR < MIN_CAPACITY then MIN_CAPACITY
            else m.capacity / GROW_FACTOR)
          else m.capacity) ∧
      (m.count - 1 = 0 → m2.entries = []) := by
  have hshape := findEntry_found_shape m.entries m.capacity k p hfound
  have hp : p < m.capacity := hshape.1
  have hlive2 : liveCount (m.entries.set p ⟨Value.undefined, Value.trueV⟩) =
      liveCount m.entries - 1 := by
    have hls := liveCount_set m.entries p ⟨Value.undefined, Value.trueV⟩
      (by omega)
    rw [if_pos hshape.2.2] at hls
    rw [if_neg (show ¬ ((⟨Value.undefined, Value.trueV⟩ : MapEntry).key ≠
      Value.undefined) from not_not_intro rfl)] at hls
    omega
  have hnolive2 : ∀ j < m.capacity,
      ((m.entries.set p ⟨Value.undefined, Value.trueV⟩).getD j default).key ≠
        Value.undefined →
      ((m.entries.set p ⟨Value.undefined, Value.trueV⟩).getD j default).key ≠
        k := by
    intro j hj hliveb
    by_cases hcase : j = p
    · subst hcase
      rw [getD_set_self m.entries j _ (by omega)] at hliveb
      exact absurd rfl hliveb
    · rw [getD_set_other m.entries p j _ (fun hc => hcase hc.symm)] at hliveb ⊢
      exact huniq j hj hcase
  have hfind2 : Findable (m.entries.set p ⟨Value.undefined, Value.trueV⟩)
      m.capacity := by
    intro j hj hliveb
    by_cases hcase : j = p
    · subst hcase
      rw [getD_set_self m.entries j _ (by omega)] at hliveb
      exact absurd rfl hliveb
    · rw [getD_set_other m.entries p j _ (fun hc => hcase hc.symm)] at hliveb ⊢
      have hold := hfind j hj hliveb
      refine findEntry_set_other m.entries m.capacity _ j p _ hlen hold hp
        hcase (Or.inl ⟨rfl, by intro hc; exact Value.noConfusion hc⟩) ?_
      intro _ hc
      rw [hshape.2.1] at hc
      exact huniq j hj hcase hc.symm
  have hcountpos : 1 ≤ liveCount m.entries :=
    liveCount_pos m.entries p (by omega) hshape.2.2
  by_cases hz : m.count - 1 = 0
  · have hrem : wrenMapRemoveKey m k =
        some (wrenMapClear, (m.entries.getD p default).value) := by
      simp only [wrenMapRemoveKey, hfound]
      rw [if_pos hz]
    refine ⟨wrenMapClear, hrem, ?_, ?_, fun _ => rfl⟩
    · rfl
    · rw [if_pos hz]
      rfl
  · by_cases hs : m.capacity > MIN_CAPACITY ∧
        m.count - 1 < m.capacity / GROW_FACTOR * MAP_LOAD_PERCENT / 100
    · have hroom3 : liveCount
          (m.entries.set p ⟨Value.undefined, Value.trueV⟩) ≤
          (if m.capacity / GROW_FACTOR < MIN_CAPACITY then MIN_CAPACITY
            else m.capacity / GROW_FACTOR) := by
        rw [hlive2]
        obtain ⟨hs1, hs2⟩ := hs
        unfold GROW_FACTOR MAP_LOAD_PERCENT at hs2
        unfold MIN_CAPACITY at hs1
        unfold MIN_CAPACITY GROW_FACTOR
        split <;> omega
      obtain ⟨m3, hres3, hcap3, hcount3, hlen3, hfind3, hlc3, hcont3⟩ :=
        resizeMap_spec
          { capacity := m.capacity
            count := m.count - 1
            entries := m.entries.set p ⟨Value.undefined, Value.trueV⟩ }
          (if m.capacity / GROW_FACTOR < MIN_CAPACITY then MIN_CAPACITY
            else m.capacity / GROW_FACTOR)
          (by simpa using hlen) hfind2 hroom3
      have hrem : wrenMapRemoveKey m k =
          some (m3, (m.entries.getD p default).value) := by
        simp only [wrenMapRemoveKey, hfound]
        rw [if_neg hz, if_pos hs, hres3]
      refine ⟨m3, hrem, ?_, ?_, fun hc => absurd hc hz⟩
      · apply wrenMapGet_of_not_found
        intro i
        apply findEntry_no_live
        intro j hjcap hliveb hkeyb
        have hjcap2 : j < m3.capacity := by rw [hcap3] at hjcap ⊢; omega
        have hf := (hcont3 (m3.entries.getD j default) hliveb).mp
          ⟨j, by rw [← hcap3]; omega, rfl⟩
        obtain ⟨j2, hj2, hje2⟩ := hf
        have hlive2b : ((m.entries.set p
            ⟨Value.undefined, Value.trueV⟩).getD j2 default).key ≠
            Value.undefined := by
          rw [hje2]
          exact hliveb
        have := hnolive2 j2 (by simpa using hj2) hlive2b
        rw [hje2, hkeyb] at this
        exact this rfl
      · rw [if_neg hz, if_pos hs]
        exact hcap3
    · have hrem : wrenMapRemoveKey m k = some
          ({ capacity := m.capacity
             count := m.count - 1
             entries := m.entries.set p ⟨Value.undefined, Value.trueV⟩ },
            (m.entries.getD p default).value) := by
        simp only [wrenMapRemoveKey, hfound]
        rw [if_neg hz, if_neg hs]
      refine ⟨_, hrem, ?_, ?_, fun hc => absurd hc hz⟩
      · apply wrenMapGet_of_not_found
        intro i
        apply findEntry_no_live
        intro j hj hliveb
        exact hnolive2 j hj hliveb
      · rw [if_neg hz, if_neg hs]

/-- C3: for any consistent map M and any key K accepted by validateKey,
wrenMapSet(M, K, v) succeeds and afterwards wrenMapGet(M, K) returns v;
removing K with wrenMapRemoveKey afterwards makes wrenMapGet(M, K) return
the Undefined sentinel — the map no longer contains K. -/
theorem mapSetGetRemove_spec (m : ObjMap) (k v : Value) (hm : ValidMap m)
    (hk : validateKey k = true) :
    ∃ m1, wrenMapSet m k v = some m1 ∧ wrenMapGet m1 k = v ∧
      ∃ m2 r, wrenMapRemoveKey m1 k = some (m2, r) ∧
        wrenMapGet m2 k = Value.undefined := by
  have hknu : k ≠ Value.undefined := by
    intro hc
    rw [hc] at hk
    simp [validateKey] at hk
  obtain ⟨m1, p, hset, hm1, hfound1, hget1, hp1, hnok1, hcnt1, _⟩ :=
    wrenMapSet_spec m k v hm hknu
  obtain ⟨hlen1, hcount1, hfind1⟩ := hm1
  obtain ⟨m2, hrem, hget2, _, _⟩ :=
    wrenMapRemoveKey_spec m1 k p hlen1 hfind1 hcount1 hfound1 hnok1
  refine ⟨m1, hset, ?_, m2, _, hrem, hget2⟩
  rw [wrenMapGet_of_found m1 k p hfound1, hget1]

/-- Witness for mapSetGetRemove_spec: inserting key 1 with value true into
the empty map and removing it again. -/
theorem mapSetGetRemove_spec_witness :
    ∃ m1, wrenMapSet ⟨0, 0, []⟩ (Value.num 1) Value.trueV = some m1 ∧
      wrenMapGet m1 (Value.num 1) = Value.trueV ∧
      ∃ m2 r, wrenMapRemoveKey m1 (Value.num 1) = some (m2, r) ∧
        wrenMapGet m2 (Value.num 1) = Value.undefined :=
  mapSetGetRemove_spec ⟨0, 0, []⟩ (Value.num 1) Value.trueV
    (by constructor <;> simp [liveCount, Findable]) (by decide)

/-- C9: map resizing obeys the spec thresholds exactly: wrenMapSet doubles
the capacity (minimum 16) precisely when count+1 > capacity*75/100 before
inserting; wrenMapRemoveKey frees the entry array when the count reaches
zero and otherwise halves the capacity (floored at 16) precisely when
capacity > 16 and the post-removal count < (capacity/2)*75/100; and every
live (key, value) pair is preserved across any resize with room for the
live entries. -/
theorem mapResize_spec :
    (∀ (m : ObjMap) (k v : Value), ValidMap m → k ≠ Value.undefined →
      ∃ m1, wrenMapSet m k v = some m1 ∧
        m1.capacity = (if m.count + 1 > m.capacity * 75 / 100
          then (if m.capacity * 2 < 16 then 16 else m.capacity * 2)
          else m.capacity)) ∧
    (∀ (m : ObjMap) (k : Value) (p : Nat),
      m.entries.length = m.capacity → Findable m.entries m.capacity →
      m.count = liveCount m.entries →
      findEntry m.entries m.capacity k = FindEntryResult.foundAt p →
      (∀ j < m.capacity, j ≠ p → (m.entries.getD j default).key ≠ k) →
      ∃ m2 r, wrenMapRemoveKey m k = some (m2, r) ∧
        (m2.capacity = if m.count - 1 = 0 then 0
          else if m.capacity > 16 ∧ m.count - 1 < m.capacity / 2 * 75 / 100
            then (if m.capacity / 2 < 16 then 16 else m.capacity / 2)
            else m.capacity) ∧
        (m.count - 1 = 0 → m2.entries = [])) ∧
    (∀ (m : ObjMap) (cap2 : Nat), ValidMap m → liveCount m.entries ≤ cap2 →
      ∃ m2, resizeMap m cap2 = some m2 ∧
        ∀ (key value : Value), key ≠ Value.undefined →
          (liveSlotWith m.entries key value ↔
            liveSlotWith m2.entries key value)) := by
  refine ⟨?_, ?_, ?_⟩
  · intro m k v hm hknu
    obtain ⟨m1, p, hset, _, _, _, _, _, _, hcap⟩ :=
      wrenMapSet_spec m k v hm hknu
    refine ⟨m1, hset, ?_⟩
    rw [hcap]
    unfold MAP_LOAD_PERCENT GROW_FACTOR MIN_CAPACITY
    rfl
  · intro m k p hlen hfind hcount hfound huniq
    obtain ⟨m2, hrem, _, hcap, hfree⟩ :=
      wrenMapRemoveKey_spec m k p hlen hfind hcount hfound huniq
    refine ⟨m2, _, hrem, ?_, hfree⟩
    rw [hcap]
    unfold MAP_LOAD_PERCENT GROW_FACTOR MIN_CAPACITY
    rfl
  · intro m cap2 hm hroom
    obtain ⟨hlen, hcount, hfind⟩ := hm
    obtain ⟨m2, hres, hcap2, _, hlen2, _, _, hcont⟩ :=
      resizeMap_spec m cap2 hlen hfind hroom
    refine ⟨m2, hres, ?_⟩
    intro key value hknu
    unfold liveSlotWith
    rw [hlen, hlen2]
    constructor
    · rintro ⟨_, j, hj, hje⟩
      exact ⟨hknu, (hcont ⟨key, value⟩ hknu).mpr ⟨j, hj, hje⟩⟩
    · rintro ⟨_, j, hj, hje⟩
      exact ⟨hknu, (hcont ⟨key, value⟩ hknu).mp ⟨j, hj, hje⟩⟩

/-- Witness for mapResize_spec: the first insertion into an empty map
grows the capacity to the 16-entry minimum; removing the only key of a
17-capacity map frees the entry array; resizing the empty map preserves
its (empty) set of live pairs. -/
theorem mapResize_spec_witness :
    (∃ m1, wrenMapSet ⟨0, 0, []⟩ (Value.num 2) Value.nullV = some m1 ∧
      m1.capacity = 16) ∧
    (∃ m2 r, wrenMapRemoveKey
        ⟨17, 1, ⟨Value.falseV, Value.num 7⟩ ::
          List.replicate 16 (default : MapEntry)⟩ Value.falseV =
        some (m2, r) ∧ m2.capacity = 0 ∧ m2.entries = []) ∧
    (∃ m2, resizeMap ⟨0, 0, []⟩ 4 = some m2) := by
  refine ⟨?_, ?_, ?_⟩
  · obtain ⟨m1, hset, hcap⟩ := mapResize_spec.1 ⟨0, 0, []⟩ (Value.num 2)
      Value.nullV (by constructor <;> simp [liveCount, Findable]) (by decide)
    exact ⟨m1, hset, by rw [hcap]; decide⟩
  · obtain ⟨m2, r, hrem, hcap, hfree⟩ := mapResize_spec.2.1
      ⟨17, 1, ⟨Value.falseV, Value.num 7⟩ ::
        List.replicate 16 (default : MapEntry)⟩ Value.falseV 0
      (by decide) (by decide) (by decide) (by decide) (by decide)
    exact ⟨m2, r, hrem, by rw [hcap]; decide, hfree (by decide)⟩
  · obtain ⟨m2, hres, _⟩ := mapResize_spec.2.2 ⟨0, 0, []⟩ 4
      (by constructor <;> simp [liveCount, Findable]) (by simp [liveCount])
    exact ⟨m2, hres⟩

/-! ### Garbage collection (claim C2) -/

theorem clearDark_markDark (h : List GcObj) (i : Nat) :
    clearDark (markDark h i) = clearDark h := by
  unfold clearDark markDark
  rw [List.map_map]
  apply List.map_congr_left
  intro o _
  by_cases hid : o.id = i <;> simp [Function.comp, hid]

theorem clearDark_grayObj (s : GcState) (i : Nat) :
    clearDark (wrenGrayObj s i).heap = clearDark s.heap := by
  unfold wrenGrayObj
  cases hfind : lookupObj s.heap i with
  | none => rfl
  | some o =>
    by_cases hdark : o.isDark
    · simp [hdark]
    · simp [hdark, clearDark_markDark]

theorem clearDark_grayAll (l : List Nat) :
    ∀ s : GcState, clearDark (grayAll s l).heap = clearDark s.heap := by
  induction l with
  | nil => intro s; rfl
  | cons i t ih =>
    intro s
    have h1 := ih (wrenGrayObj s i)
    have h2 := clearDark_grayObj s i
    simp only [grayAll, List.foldl_cons] at *
    rw [h1, h2]

theorem map_id_clearDark (h : List GcObj) :
    (clearDark h).map GcObj.id = h.map GcObj.id := by
  unfold clearDark
  rw [List.map_map]
  rfl

theorem clearDark_of_white (h : List GcObj) (hw : ∀ o ∈ h, o.isDark = false) :
    clearDark h = h := by
  unfold clearDark
  conv_rhs => rw [← List.map_id h]
  apply List.map_congr_left
  intro o ho
  have := hw o ho
  cases o
  simp_all

theorem lookupObj_clearDark (h : List GcObj) (i : Nat) :
    lookupObj (clearDark h) i =
      (lookupObj h i).map (fun o => { o with isDark := false }) := by
  unfold lookupObj clearDark
  rw [List.find?_map]
  rfl

theorem refsOf_clearDark (h : List GcObj) (i : Nat) :
    refsOf (clearDark h) i = refsOf h i := by
  unfold refsOf
  rw [lookupObj_clearDark]
  cases lookupObj h i <;> rfl

theorem refsOf_congr (h1 h2 : List GcObj) (i : Nat)
    (he : clearDark h1 = clearDark h2) : refsOf h1 i = refsOf h2 i := by
  rw [← refsOf_clearDark h1, he, refsOf_clearDark]

theorem exists_id_clearDark (h : List GcObj) (r : Nat) :
    (∃ o ∈ clearDark h, o.id = r) ↔ (∃ o ∈ h, o.id = r) := by
  unfold clearDark
  constructor
  · rintro ⟨o, hm, hid⟩
    obtain ⟨o0, hm0, rfl⟩ := List.mem_map.mp hm
    exact ⟨o0, hm0, hid⟩
  · rintro ⟨o, hm, hid⟩
    exact ⟨{ o with isDark := false }, List.mem_map.mpr ⟨o, hm, rfl⟩, hid⟩

theorem exists_id_congr (h1 h2 : List GcObj) (r : Nat)
    (he : clearDark h1 = clearDark h2) :
    (∃ o ∈ h1, o.id = r) ↔ (∃ o ∈ h2, o.id = r) := by
  rw [← exists_id_clearDark h1, he, exists_id_clearDark]

theorem darkAt_markDark_mono (h : List GcObj) (i j : Nat)
    (hd : darkAt h j) : darkAt (markDark h i) j := by
  obtain ⟨o, hm, hid, hdark⟩ := hd
  by_cases hc : o.id = i
  · exact ⟨{ o with isDark := true },
      List.mem_map.mpr ⟨o, hm, by rw [if_pos hc]⟩, hid, rfl⟩
  · exact ⟨o, List.mem_map.mpr ⟨o, hm, by rw [if_neg hc]⟩, hid, hdark⟩

theorem darkAt_grayObj_mono (s : GcState) (i j : Nat)
    (hd : darkAt s.heap j) : darkAt (wrenGrayObj s i).heap j := by
  unfold wrenGrayObj
  cases hfind : lookupObj s.heap i with
  | none => exact hd
  | some o =>
    by_cases hdark : o.isDark
    · simpa [hdark] using hd
    · simpa [hdark] using darkAt_markDark_mono s.heap i j hd

theorem darkAt_markDark_mono_self (h : List GcObj) (i : Nat) (o : GcObj)
    (hm : o ∈ h) (hid : o.id = i) : darkAt (markDark h i) i := by
  refine ⟨{ o with isDark := true }, ?_, hid, rfl⟩
  unfold markDark
  exact List.mem_map.mpr ⟨o, hm, by rw [if_pos hid]⟩

theorem grayObj_darkens (s : GcState) (i : Nat)
    (hex : ∃ o ∈ s.heap, o.id = i) : darkAt (wrenGrayObj s i).heap i := by
  unfold wrenGrayObj
  cases hfind : lookupObj s.heap i with
  | none =>
    obtain ⟨o, hm, hid⟩ := hex
    have := List.find?_eq_none.mp hfind o hm
    simp [hid] at this
  | some o =>
    have hmo : o ∈ s.heap := List.mem_of_find?_eq_some hfind
    have hido : o.id = i := by
      have := List.find?_some hfind
      simpa using this
    by_cases hdark : o.isDark
    · simpa [hdark] using ⟨o, hmo, hido, hdark⟩
    · simp only [hdark, if_false, Bool.false_eq_true]
      exact darkAt_markDark_mono_self s.heap i o hmo hido

theorem darkAt_grayObj_cases (s : GcState) (i j : Nat)
    (hd : darkAt (wrenGrayObj s i).heap j) : darkAt s.heap j ∨ j = i := by
  unfold wrenGrayObj at hd
  cases hfind : lookupObj s.heap i with
  | none => rw [hfind] at hd; exact Or.inl hd
  | some o =>
    rw [hfind] at hd
    by_cases hdark : o.isDark
    · simp [hdark] at hd; exact Or.inl hd
    · simp only [hdark, Bool.false_eq_true, if_false] at hd
      obtain ⟨o2, hm2, hid2, hdark2⟩ := hd
      unfold markDark at hm2
      obtain ⟨o0, hm0, rfl⟩ := List.mem_map.mp hm2
      by_cases hc : o0.id = i
      · right
        rw [if_pos hc] at hid2
        exact hid2.symm.trans hc
      · left
        rw [if_neg hc] at hid2 hdark2
        exact ⟨o0, hm0, hid2, hdark2⟩

theorem grayObj_eq_none (s : GcState) (i : Nat)
    (h : lookupObj s.heap i = none) : wrenGrayObj s i = s := by
  unfold wrenGrayObj
  rw [h]

theorem grayObj_eq_dark (s : GcState) (i : Nat) (o : GcObj)
    (h : lookupObj s.heap i = some o) (hd : o.isDark = true) :
    wrenGrayObj s i = s := by
  unfold wrenGrayObj
  rw [h]
  simp [hd]

theorem grayObj_eq_white (s : GcState) (i : Nat) (o : GcObj)
    (h : lookupObj s.heap i = some o) (hd : o.isDark = false) :
    wrenGrayObj s i = { heap := markDark s.heap i, gray := i :: s.gray } := by
  unfold wrenGrayObj
  rw [h]
  simp [hd]

theorem grayObj_gray_super (s : GcState) (i : Nat) :
    s.gray ⊆ (wrenGrayObj s i).gray := by
  unfold wrenGrayObj
  cases hfind : lookupObj s.heap i with
  | none => exact fun x hx => hx
  | some o =>
    by_cases hdark : o.isDark
    · simp only [hdark, if_true]
      exact fun x hx => hx
    · simp only [hdark, Bool.false_eq_true, if_false]
      exact fun x hx => List.mem_cons_of_mem i hx

theorem grayObj_new_gray (s : GcState) (i j : Nat)
    (hd : darkAt (wrenGrayObj s i).heap j) (hnd : ¬ darkAt s.heap j) :
    j ∈ (wrenGrayObj s i).gray := by
  cases hfind : lookupObj s.heap i with
  | none =>
    rw [grayObj_eq_none s i hfind] at hd
    exact absurd hd hnd
  | some o =>
    by_cases hdark : o.isDark
    · rw [grayObj_eq_dark s i o hfind hdark] at hd
      exact absurd hd hnd
    · have hw : o.isDark = false := by simpa using hdark
      rcases darkAt_grayObj_cases s i j hd with hold | hji
      · exact absurd hold hnd
      · rw [grayObj_eq_white s i o hfind hw, hji]
        exact List.mem_cons_self i s.gray

theorem grayObj_gray_dark (s : GcState) (i : Nat)
    (hb : ∀ j ∈ s.gray, darkAt s.heap j) :
    ∀ j ∈ (wrenGrayObj s i).gray, darkAt (wrenGrayObj s i).heap j := by
  intro j hj
  by_cases hjold : j ∈ s.gray
  · exact darkAt_grayObj_mono s i j (hb j hjold)
  · cases hfind : lookupObj s.heap i with
    | none =>
      rw [grayObj_eq_none s i hfind] at hj
      exact absurd hj hjold
    | some o =>
      by_cases hdark : o.isDark
      · rw [grayObj_eq_dark s i o hfind hdark] at hj
        exact absurd hj hjold
      · have hw : o.isDark = false := by simpa using hdark
        rw [grayObj_eq_white s i o hfind hw] at hj ⊢
        rcases List.mem_cons.mp hj with hji | hjtail
        · rw [hji]
          exact darkAt_markDark_mono_self s.heap i o
            (List.mem_of_find?_eq_some hfind) (by simpa using List.find?_some hfind)
        · exact absurd hjtail hjold

theorem grayAll_gray_super (l : List Nat) :
    ∀ s : GcState, s.gray ⊆ (grayAll s l).gray := by
  induction l with
  | nil => intro s; exact fun x hx => hx
  | cons i t ih =>
    intro s
    have h1 := grayObj_gray_super s i
    have h2 := ih (wrenGrayObj s i)
    simp only [grayAll, List.foldl_cons] at *
    exact fun x hx => h2 (h1 hx)

theorem darkAt_grayAll_mono (l : List Nat) :
    ∀ (s : GcState) (j : Nat), darkAt s.heap j →
      darkAt (grayAll s l).heap j := by
  induction l with
  | nil => intro s j hd; exact hd
  | cons i t ih =>
    intro s j hd
    have h1 := darkAt_grayObj_mono s i j hd
    have h2 := ih (wrenGrayObj s i) j h1
    simpa only [grayAll, List.foldl_cons] using h2

theorem grayAll_darkens (l : List Nat) :
    ∀ s : GcState, (∀ r ∈ l, ∃ o ∈ s.heap, o.id = r) →
      ∀ r ∈ l, darkAt (grayAll s l).heap r := by
  induction l with
  | nil => intro s _ r hr; exact absurd hr (List.not_mem_nil r)
  | cons i t ih =>
    intro s hex r hr
    rcases List.mem_cons.mp hr with hri | hrt
    · rw [hri]
      have h1 := grayObj_darkens s i (hex i (List.mem_cons_self i t))
      have h2 := darkAt_grayAll_mono t (wrenGrayObj s i) i h1
      simpa only [grayAll, List.foldl_cons] using h2
    · have hex2 : ∀ r2 ∈ t, ∃ o ∈ (wrenGrayObj s i).heap, o.id = r2 := by
        intro r2 hr2
        exact (exists_id_congr s.heap (wrenGrayObj s i).heap r2
          (clearDark_grayObj s i).symm).mp (hex r2 (List.mem_cons_of_mem i hr2))
      have h2 := ih (wrenGrayObj s i) hex2 r hrt
      simpa only [grayAll, List.foldl_cons] using h2

theorem grayAll_sound (l : List Nat) :
    ∀ (s : GcState) (j : Nat), darkAt (grayAll s l).heap j →
      darkAt s.heap j ∨ j ∈ l := by
  induction l with
  | nil => intro s j hd; exact Or.inl hd
  | cons i t ih =>
    intro s j hd
    simp only [grayAll, List.foldl_cons] at hd
    rcases ih (wrenGrayObj s i) j hd with h1 | h2
    · rcases darkAt_grayObj_cases s i j h1 with h3 | h4
      · exact Or.inl h3
      · exact Or.inr (by rw [h4]; exact List.mem_cons_self i t)
    · exact Or.inr (List.mem_cons_of_mem i h2)

theorem grayAll_new_gray (l : List Nat) :
    ∀ (s : GcState) (j : Nat), darkAt (grayAll s l).heap j →
      ¬ darkAt s.heap j → j ∈ (grayAll s l).gray := by
  induction l with
  | nil => intro s j hd hnd; exact absurd hd hnd
  | cons i t ih =>
    intro s j hd hnd
    simp only [grayAll, List.foldl_cons] at hd ⊢
    by_cases hmid : darkAt (wrenGrayObj s i).heap j
    · have hj1 := grayObj_new_gray s i j hmid hnd
      exact grayAll_gray_super t (wrenGrayObj s i) hj1
    · exact ih (wrenGrayObj s i) j hd hmid

theorem grayAll_gray_dark (l : List Nat) :
    ∀ s : GcState, (∀ j ∈ s.gray, darkAt s.heap j) →
      ∀ j ∈ (grayAll s l).gray, darkAt (grayAll s l).heap j := by
  induction l with
  | nil => intro s hb j hj; exact hb j hj
  | cons i t ih =>
    intro s hb j hj
    simp only [grayAll, List.foldl_cons] at hj ⊢
    exact ih (wrenGrayObj s i) (grayObj_gray_dark s i hb) j hj

theorem undarkCount_markDark_le (h : List GcObj) (oid : Nat) :
    undarkCount (markDark h oid) ≤ undarkCount h := by
  unfold undarkCount markDark
  rw [List.countP_map]
  apply List.countP_mono_left
  intro o _ ho
  by_cases hid : o.id = oid
  · simp [hid, Function.comp] at ho
  · simpa [hid, Function.comp] using ho

theorem undarkCount_markDark_lt (h : List GcObj) (oid : Nat) (o : GcObj)
    (hfind : lookupObj h oid = some o) (hdark : o.isDark = false) :
    undarkCount (markDark h oid) < undarkCount h := by
  induction h with
  | nil => simp [lookupObj] at hfind
  | cons x t ih =>
    by_cases hx : x.id = oid
    · rw [lookupObj, List.find?_cons_of_pos _ (by simp [hx])] at hfind
      have hxo : x = o := by injection hfind
      subst hxo
      have h2 := undarkCount_markDark_le t oid
      unfold undarkCount markDark at h2 ⊢
      rw [List.countP_map] at h2 ⊢
      simp only [List.countP_cons, Function.comp, if_pos hx, hdark]
      norm_num
      omega
    · rw [lookupObj, List.find?_cons_of_neg _ (by simp [hx])] at hfind
      have h2 := ih hfind
      unfold undarkCount markDark at h2 ⊢
      rw [List.countP_map] at h2 ⊢
      simp only [List.countP_cons, Function.comp, if_neg hx]
      omega

theorem gcMeasure_grayObj_le (i : Nat) (s : GcState) :
    gcMeasure (wrenGrayObj s i) ≤ gcMeasure s := by
  unfold wrenGrayObj
  cases hfind : lookupObj s.heap i with
  | none => simp
  | some o =>
    by_cases hdark : o.isDark
    · simp [hdark]
    · simp only [hdark, if_false, Bool.false_eq_true]
      have := undarkCount_markDark_lt s.heap i o hfind (by simpa using hdark)
      simp only [gcMeasure, List.length_cons]
      omega

theorem gcMeasure_grayAll_le (ids : List Nat) :
    ∀ s : GcState, gcMeasure (grayAll s ids) ≤ gcMeasure s := by
  induction ids with
  | nil => intro s; simp [grayAll]
  | cons i t ih =>
    intro s
    have h1 := ih (wrenGrayObj s i)
    have h2 := gcMeasure_grayObj_le i s
    simp only [grayAll, List.foldl_cons] at *
    omega

theorem wrenBlackenObjects_nil (s : GcState) (h : s.gray = []) :
    wrenBlackenObjects s = s := by
  rw [wrenBlackenObjects]
  split
  · rfl
  · rename_i oid rest hg
    rw [h] at hg
    exact absurd hg (by simp)

theorem wrenBlackenObjects_cons (s : GcState) (oid : Nat) (rest : List Nat)
    (h : s.gray = oid :: rest) :
    wrenBlackenObjects s =
      wrenBlackenObjects
        (grayAll { heap := s.heap, gray := rest } (refsOf s.heap oid)) := by
  rw [wrenBlackenObjects]
  split
  · rename_i hg
    rw [h] at hg
    exact absurd hg (by simp)
  · rename_i oid2 rest2 hg
    rw [h] at hg
    injection hg with h1 h2
    rw [← h1, ← h2]

theorem grayAll_append (l1 l2 : List Nat) (s : GcState) :
    grayAll s (l1 ++ l2) = grayAll (grayAll s l1) l2 := by
  unfold grayAll
  rw [List.foldl_append]

theorem foldl_grayOpt (hv : List (Option Nat)) :
    ∀ s : GcState, hv.foldl wrenGrayOpt s = grayAll s hv.reduceOption := by
  induction hv with
  | nil => intro s; rfl
  | cons x t ih =>
    intro s
    cases x with
    | none => simp only [List.foldl_cons, List.reduceOption_cons_of_none]
              exact ih s
    | some i => simp only [List.foldl_cons, List.reduceOption_cons_of_some]
                exact ih (wrenGrayObj s i)

theorem wrenCollectGarbage_eq (vm : GcVM) :
    wrenCollectGarbage vm =
      { vm with
          heap := (((wrenBlackenObjects
              (grayAll { heap := vm.heap, gray := [] } (rootIds vm))).heap.filter
            (fun o => o.isDark)).map (fun o => { o with isDark := false })) } := by
  simp only [wrenCollectGarbage, rootIds]
  rw [foldl_grayOpt]
  cases vm.modules <;> cases vm.fiber <;>
    simp [wrenGrayOpt, grayAll_append, grayAll]

theorem refsOf_eq_none (h : List GcObj) (i : Nat)
    (hf : lookupObj h i = none) : refsOf h i = [] := by
  unfold refsOf
  rw [hf]

theorem refsOf_eq_some (h : List GcObj) (i : Nat) (o : GcObj)
    (hf : lookupObj h i = some o) : refsOf h i = o.refs := by
  unfold refsOf
  rw [hf]

theorem refsOf_exists (vm : GcVM) (hwf : HeapWF vm) (i r : Nat)
    (hr : r ∈ refsOf vm.heap i) : ∃ o ∈ vm.heap, o.id = r := by
  cases hfind : lookupObj vm.heap i with
  | none =>
    rw [refsOf_eq_none vm.heap i hfind] at hr
    exact absurd hr (List.not_mem_nil r)
  | some o =>
    rw [refsOf_eq_some vm.heap i o hfind] at hr
    exact hwf.2.2.1 o (List.mem_of_find?_eq_some hfind) r hr

theorem markInv_grayObj (vm : GcVM) (s : GcState) (i : Nat)
    (hinv : MarkInv vm s) (hre : ReachableFrom vm i) :
    MarkInv vm (wrenGrayObj s i) := by
  obtain ⟨ha, hb, hc, hd⟩ := hinv
  refine ⟨?_, grayObj_gray_dark s i hb, ?_, ?_⟩
  · rw [clearDark_grayObj, ha]
  · intro j hj
    rcases darkAt_grayObj_cases s i j hj with h1 | h2
    · exact hc j h1
    · rw [h2]; exact hre
  · intro j hj hg
    have hgsub := grayObj_gray_super s i
    have hjold : j ∉ s.gray := fun hx => hg (hgsub hx)
    have hrefs : refsOf (wrenGrayObj s i).heap j = refsOf s.heap j :=
      refsOf_congr _ _ j (clearDark_grayObj s i)
    by_cases hds : darkAt s.heap j
    · intro r hr
      rw [hrefs] at hr
      exact darkAt_grayObj_mono s i r (hd j hds hjold r hr)
    · exact absurd (grayObj_new_gray s i j hj hds) hg

theorem markInv_grayAll (vm : GcVM) (l : List Nat) :
    ∀ s : GcState, MarkInv vm s → (∀ i ∈ l, ReachableFrom vm i) →
      MarkInv vm (grayAll s l) := by
  induction l with
  | nil => intro s h _; exact h
  | cons i t ih =>
    intro s h hr
    exact ih (wrenGrayObj s i)
      (markInv_grayObj vm s i h (hr i (List.mem_cons_self i t)))
      (fun j hj => hr j (List.mem_cons_of_mem i hj))

theorem blacken_aux (vm : GcVM) (hwf : HeapWF vm) :
    ∀ n : Nat, ∀ s : GcState, gcMeasure s ≤ n → MarkInv vm s →
      (wrenBlackenObjects s).gray = [] ∧
      clearDark (wrenBlackenObjects s).heap = clearDark vm.heap ∧
      (∀ j, darkAt (wrenBlackenObjects s).heap j → ReachableFrom vm j) ∧
      (∀ j, darkAt (wrenBlackenObjects s).heap j →
        ∀ r ∈ refsOf (wrenBlackenObjects s).heap j,
          darkAt (wrenBlackenObjects s).heap r) ∧
      (∀ j, darkAt s.heap j → darkAt (wrenBlackenObjects s).heap j) := by
  intro n
  induction n with
  | zero =>
    intro s hle hinv
    have hg : s.gray = [] := by
      unfold gcMeasure at hle
      have hlen : s.gray.length = 0 := by omega
      exact List.eq_nil_of_length_eq_zero hlen
    rw [wrenBlackenObjects_nil s hg]
    obtain ⟨ha, hb, hc, hd⟩ := hinv
    exact ⟨hg, ha, hc,
      fun j hj r hr => hd j hj (by rw [hg]; exact List.not_mem_nil j) r hr,
      fun j h => h⟩
  | succ n ih =>
    intro s hle hinv
    cases hg : s.gray with
    | nil =>
      rw [wrenBlackenObjects_nil s hg]
      obtain ⟨ha, hb, hc, hd⟩ := hinv
      exact ⟨hg, ha, hc,
        fun j hj r hr => hd j hj (by rw [hg]; exact List.not_mem_nil j) r hr,
        fun j h => h⟩
    | cons oid rest =>
      rw [wrenBlackenObjects_cons s oid rest hg]
      obtain ⟨ha, hb, hc, hd⟩ := hinv
      have hdoid : darkAt s.heap oid :=
        hb oid (by rw [hg]; exact List.mem_cons_self oid rest)
      have hreach_oid : ReachableFrom vm oid := hc oid hdoid
      have hrefs_vm : refsOf s.heap oid = refsOf vm.heap oid :=
        refsOf_congr _ _ oid ha
      have hreach_refs : ∀ r ∈ refsOf s.heap oid, ReachableFrom vm r := by
        intro r hr
        obtain ⟨rt, hrt, hrtg⟩ := hreach_oid
        refine ⟨rt, hrt, Relation.ReflTransGen.tail hrtg ?_⟩
        unfold gcStep
        rw [← hrefs_vm]
        exact hr
      have hex_refs : ∀ r ∈ refsOf s.heap oid,
          ∃ o ∈ s.heap, o.id = r := by
        intro r hr
        rw [hrefs_vm] at hr
        exact (exists_id_congr s.heap vm.heap r ha).mpr
          (refsOf_exists vm hwf oid r hr)
      have hb1 : ∀ j ∈ rest, darkAt s.heap j :=
        fun j hj => hb j (by rw [hg]; exact List.mem_cons_of_mem oid hj)
      have hmeas : gcMeasure (grayAll { heap := s.heap, gray := rest }
          (refsOf s.heap oid)) ≤ n := by
        have h1 := gcMeasure_grayAll_le (refsOf s.heap oid)
          { heap := s.heap, gray := rest }
        have h2 : gcMeasure { heap := s.heap, gray := rest } + 1 =
            gcMeasure s := by
          show 2 * undarkCount s.heap + rest.length + 1 =
            2 * undarkCount s.heap + s.gray.length
          rw [hg, List.length_cons]
          omega
        omega
      have hinv2 : MarkInv vm (grayAll { heap := s.heap, gray := rest }
          (refsOf s.heap oid)) := by
        have ha2 : clearDark (grayAll { heap := s.heap, gray := rest }
            (refsOf s.heap oid)).heap = clearDark vm.heap := by
          rw [clearDark_grayAll]
          exact ha
        refine ⟨ha2, ?_, ?_, ?_⟩
        · exact grayAll_gray_dark (refsOf s.heap oid)
            { heap := s.heap, gray := rest } hb1
        · intro j hj
          rcases grayAll_sound (refsOf s.heap oid)
            { heap := s.heap, gray := rest } j hj with h1 | h2
          · exact hc j h1
          · exact hreach_refs j h2
        · intro j hj hgg
          have hrefs2 : refsOf (grayAll { heap := s.heap, gray := rest }
              (refsOf s.heap oid)).heap j = refsOf s.heap j :=
            refsOf_congr _ _ j (by rw [ha2, ← ha])
          rw [hrefs2]
          by_cases hds : darkAt s.heap j
          · by_cases hjg : j ∈ s.gray
            · rw [hg] at hjg
              rcases List.mem_cons.mp hjg with hjo | hjr
              · rw [hjo]
                intro r hr
                exact grayAll_darkens (refsOf s.heap oid)
                  { heap := s.heap, gray := rest } hex_refs r hr
              · exact absurd (grayAll_gray_super (refsOf s.heap oid)
                  { heap := s.heap, gray := rest } hjr) hgg
            · intro r hr
              exact darkAt_grayAll_mono (refsOf s.heap oid)
                { heap := s.heap, gray := rest } r (hd j hds hjg r hr)
          · exact absurd (grayAll_new_gray (refsOf s.heap oid)
              { heap := s.heap, gray := rest } j hj hds) hgg
      obtain ⟨r1, r2, r3, r4, r5⟩ := ih (grayAll { heap := s.heap, gray := rest }
        (refsOf s.heap oid)) hmeas hinv2
      refine ⟨r1, r2, r3, r4, ?_⟩
      intro j hj
      exact r5 j (darkAt_grayAll_mono (refsOf s.heap oid)
        { heap := s.heap, gray := rest } j hj)

/-- C2: under a well-formed heap (distinct object ids, all mark bits
clear, references and roots resolving on the allocation list),
wrenCollectGarbage keeps exactly the objects reachable from the VM roots
(modules map, temporary roots, current fiber, handle values, compiler
roots, method-name symbols): every reachable object on the allocation
list survives unchanged, every survivor was on the list and is reachable,
and every survivor's isDark bit is false. -/
theorem wrenCollectGarbage_spec (vm : GcVM) (hwf : HeapWF vm) :
    (∀ o ∈ vm.heap, ReachableFrom vm o.id →
      o ∈ (wrenCollectGarbage vm).heap) ∧
    (∀ o ∈ (wrenCollectGarbage vm).heap,
      o ∈ vm.heap ∧ ReachableFrom vm o.id ∧ o.isDark = false) := by
  have hnodup := hwf.1
  have hwhite := hwf.2.1
  have hroots := hwf.2.2.2
  have hinv0 : MarkInv vm { heap := vm.heap, gray := [] } := by
    refine ⟨rfl, ?_, ?_, ?_⟩
    · intro j hj; exact absurd hj (List.not_mem_nil j)
    · intro j hj
      obtain ⟨o, hm, _, hdark⟩ := hj
      rw [hwhite o hm] at hdark
      exact absurd hdark (by simp)
    · intro j hj
      obtain ⟨o, hm, _, hdark⟩ := hj
      rw [hwhite o hm] at hdark
      exact absurd hdark (by simp)
  have hrr : ∀ r ∈ rootIds vm, ReachableFrom vm r :=
    fun r hr => ⟨r, hr, Relation.ReflTransGen.refl⟩
  have hinv1 := markInv_grayAll vm (rootIds vm) _ hinv0 hrr
  obtain ⟨hRg, hRa, hRc, hRd, hRmono⟩ :=
    blacken_aux vm hwf
      (gcMeasure (grayAll { heap := vm.heap, gray := [] } (rootIds vm)))
      (grayAll { heap := vm.heap, gray := [] } (rootIds vm)) le_rfl hinv1
  have hrootsdark : ∀ r ∈ rootIds vm,
      darkAt (wrenBlackenObjects
        (grayAll { heap := vm.heap, gray := [] } (rootIds vm))).heap r := by
    intro r hr
    exact hRmono r (grayAll_darkens (rootIds vm)
      { heap := vm.heap, gray := [] } (fun r2 hr2 => hroots r2 hr2) r hr)
  have hcomplete : ∀ j, ReachableFrom vm j →
      darkAt (wrenBlackenObjects
        (grayAll { heap := vm.heap, gray := [] } (rootIds vm))).heap j := by
    rintro j ⟨r, hrmem, hrtg⟩
    induction hrtg with
    | refl => exact hrootsdark r hrmem
    | tail hab hbc ihh =>
      rename_i b c
      refine hRd b ihh c ?_
      rw [refsOf_congr _ _ b hRa]
      exact hbc
  have hclear : clearDark (wrenBlackenObjects
      (grayAll { heap := vm.heap, gray := [] } (rootIds vm))).heap =
      vm.heap := by
    rw [hRa, clearDark_of_white vm.heap hwhite]
  have hnodupR : ((wrenBlackenObjects
      (grayAll { heap := vm.heap, gray := [] }
        (rootIds vm))).heap.map GcObj.id).Nodup := by
    rw [← map_id_clearDark, hclear]
    exact hnodup
  rw [wrenCollectGarbage_eq]
  constructor
  · intro o ho hre
    have hoc : o ∈ clearDark (wrenBlackenObjects
        (grayAll { heap := vm.heap, gray := [] } (rootIds vm))).heap := by
      rw [hclear]; exact ho
    unfold clearDark at hoc
    obtain ⟨o2, hm2, he2⟩ := List.mem_map.mp hoc
    have hid2 : o2.id = o.id := by rw [← he2]
    obtain ⟨o3, hm3, hid3, hdark3⟩ := hcomplete o.id hre
    have ho23 : o2 = o3 :=
      List.inj_on_of_nodup_map hnodupR hm2 hm3 (by rw [hid2, hid3])
    refine List.mem_map.mpr ⟨o2, ?_, he2⟩
    refine List.mem_filter.mpr ⟨hm2, ?_⟩
    rw [ho23]
    exact hdark3
  · intro o ho
    obtain ⟨o2, hm2, he2⟩ := List.mem_map.mp ho
    obtain ⟨hm2R, hdark2⟩ := List.mem_filter.mp hm2
    have hid2 : o2.id = o.id := by rw [← he2]
    refine ⟨?_, ?_, ?_⟩
    · rw [← hclear]
      unfold clearDark
      exact List.mem_map.mpr ⟨o2, hm2R, he2⟩
    · rw [← hid2]
      exact hRc o2.id ⟨o2, hm2R, rfl, hdark2⟩
    · rw [← he2]

/-- Witness for wrenCollectGarbage_spec on a three-object heap whose only
root is object 1 with 1 → 2 and an unreachable 3: object 1 survives and
every survivor is unmarked. -/
theorem wrenCollectGarbage_spec_witness :
    (⟨1, false, [2]⟩ : GcObj) ∈ (wrenCollectGarbage
      { heap := [⟨1, false, [2]⟩, ⟨2, false, []⟩, ⟨3, false, [1]⟩]
        modules := none
        tempRoots := [1]
        fiber := none
        handleValues := []
        compilerRoots := []
        methodNames := [] }).heap ∧
    ∀ o ∈ (wrenCollectGarbage
      { heap := [⟨1, false, [2]⟩, ⟨2, false, []⟩, ⟨3, false, [1]⟩]
        modules := none
        tempRoots := [1]
        fiber := none
        handleValues := []
        compilerRoots := []
        methodNames := [] }).heap, o.isDark = false := by
  refine ⟨?_, ?_⟩
  · exact (wrenCollectGarbage_spec _ (by unfold HeapWF; decide)).1
      ⟨1, false, [2]⟩ (by decide) ⟨1, by decide, Relation.ReflTransGen.refl⟩
  · intro o ho
    exact ((wrenCollectGarbage_spec _ (by unfold HeapWF; decide)).2 o ho).2.2

end Wren
